import Mathlib

/-!
Verification of the protocompile front-end core: the `ast.FileInfo`
source-position index, the resolver layer, and the print round-trip.

Conventions of the embedding:
* Go `int` values that the code compares against `0` (offsets, lengths)
  are `Int`; slice indices produced by the library itself are `Nat`.
* File contents (`[]byte`) are `List Nat`, one entry per byte.
* Functions that `panic` in Go return `Option`/a pair with an error slot.
* Opaque runtime payloads (an `io.Reader`, a linked descriptor) are `Nat`
  handles: the code under verification never inspects them.
-/

set_option maxHeartbeats 1000000

namespace Protocompile

/-! ### Go's `sort.Search`

`sort.Search(n, f)` does binary search for the least index in `[0, n)` at
which `f` holds, assuming `f` is monotone (false then true) on `[0, n)`.
The recursion is fueled; fuel `n` dominates the interval width `j - i`,
which shrinks at every step, so the fuel never runs out.
-/

def sortSearchGo (f : Nat → Bool) : Nat → Nat → Nat → Nat
  | 0, i, _ => i
  | fuel + 1, i, j =>
    if i < j then
      if f ((i + j) / 2) then sortSearchGo f fuel i ((i + j) / 2)
      else sortSearchGo f fuel ((i + j) / 2 + 1) j
    else i

def sortSearch (n : Nat) (f : Nat → Bool) : Nat := sortSearchGo f n 0 n

/-! ### The `ast.FileInfo` data model (from `fileinfo.go`) -/

structure tokenInfo where
  offset : Int
  length : Int
deriving DecidableEq, Repr, Inhabited

structure commentInfo where
  index : Nat
  attributedToken : Nat
deriving DecidableEq, Repr, Inhabited

structure FileInfo where
  name : String
  data : List Nat
  lines : List Int
  comments : List commentInfo
  tokens : List tokenInfo
deriving DecidableEq, Repr, Inhabited

/-- `NewFileInfo` — the line table starts as `[0]`. -/
def NewFileInfo (filename : String) (contents : List Nat) : FileInfo :=
  { name := filename, data := contents, lines := [0], comments := [], tokens := [] }

/-- `FileInfo.AddLine`. The Go code panics on a bad offset; here that is `none`. -/
def FileInfo.AddLine (f : FileInfo) (offset : Int) : Option FileInfo :=
  if offset < 0 then none
  else if offset > (f.data.length : Int) then none
  else if 0 < f.lines.length ∧ offset ≤ f.lines.getD (f.lines.length - 1) 0 then none
  else some { f with lines := f.lines ++ [offset] }

/-- `FileInfo.AddToken`. The bounds check is `offset+offset > len(f.data)`,
exactly as in the source (whose panic message nonetheless prints
`offset+length`). Success returns the updated index and the new token's
slot, the `index` field of the returned `TokenInfo`. -/
def FileInfo.AddToken (f : FileInfo) (offset length : Int) : Option (FileInfo × Nat) :=
  if offset < 0 then none
  else if length < 0 then none
  else if offset + offset > (f.data.length : Int) then none
  else if 0 < f.tokens.length ∧
      offset ≤ (f.tokens.getD (f.tokens.length - 1) default).offset +
        (f.tokens.getD (f.tokens.length - 1) default).length - 1 then none
  else some ({ f with tokens := f.tokens ++ [{ offset := offset, length := length }] },
    f.tokens.length)

/-- `FileInfo.AddComment`. The two Go panics (comment index not increasing,
attribution index decreasing) are merged into one disjunction; the
same-`FileInfo` pointer check is implicit in passing plain indices. -/
def FileInfo.AddComment (f : FileInfo) (comment attributedTo : Nat) : Option (FileInfo × Nat) :=
  if 0 < f.comments.length ∧
      (comment ≤ (f.comments.getD (f.comments.length - 1) default).index ∨
       attributedTo < (f.comments.getD (f.comments.length - 1) default).attributedToken) then none
  else some ({ f with
    comments := f.comments ++ [{ index := comment, attributedToken := attributedTo }] },
    f.comments.length)

/-- The column loop of `FileInfo.pos`, folded over the bytes between the
line start and the requested offset. Byte 9 is `'\t'`. -/
def colWalk : List Nat → Nat → Nat
  | [], col => col
  | b :: bs, col => colWalk bs (if b = 9 then col + (8 - col % 8) else col + 1)

structure SourcePos where
  filename : String
  offset : Int
  line : Nat
  col : Nat
deriving DecidableEq, Repr

/-- `FileInfo.pos`: binary search the line table, then walk the bytes of
the line up to `offset` to compute the column. -/
def FileInfo.pos (f : FileInfo) (offset : Int) : SourcePos :=
  let lineNumber := sortSearch f.lines.length (fun n => decide (f.lines.getD n 0 > offset))
  let start := f.lines.getD (lineNumber - 1) 0
  let col := colWalk ((f.data.drop start.toNat).take (offset - start).toNat) 0
  { filename := f.name, offset := offset, line := lineNumber, col := col + 1 }

/-- Shorthand for the token record at slot `k`. -/
def FileInfo.tok (f : FileInfo) (k : Nat) : tokenInfo := f.tokens.getD k default

/-- Shorthand for the comment record at slot `n`. -/
def FileInfo.com (f : FileInfo) (n : Nat) : commentInfo := f.comments.getD n default

/-- The `prevEnd` of `TokenInfo.LeadingWhitespace`: the end of the
previous token, or 0 for the first token. -/
def FileInfo.prevEnd (f : FileInfo) (t : Nat) : Int :=
  if 0 < t then (f.tok (t - 1)).offset + (f.tok (t - 1)).length else 0

/-- `TokenInfo.LeadingWhitespace`: the bytes between the previous token's
end (or 0 for the first token) and this token's offset. -/
def FileInfo.LeadingWhitespace (f : FileInfo) (t : Nat) : List Nat :=
  (f.data.drop (f.prevEnd t).toNat).take ((f.tok t).offset - f.prevEnd t).toNat

/-- `TokenInfo.RawText`: the bytes of the token itself. -/
def FileInfo.RawText (f : FileInfo) (t : Nat) : List Nat :=
  (f.data.drop (f.tok t).offset.toNat).take (f.tok t).length.toNat

/-- `TokenInfo.LeadingComments`, returning the `(first, num)` fields of the
`Comments` range. -/
def FileInfo.LeadingComments (f : FileInfo) (t : Nat) : Nat × Nat :=
  let start := sortSearch f.comments.length (fun n => decide (t ≤ (f.com n).attributedToken))
  if start = f.comments.length ∨ (f.com start).attributedToken ≠ t then (0, 0)
  else
    (start, ((List.range' start (f.comments.length - start)).takeWhile (fun i =>
      decide ((f.com i).attributedToken = t ∧
        (f.tok (f.com i).index).offset < (f.tok t).offset))).length)

/-- `TokenInfo.TrailingComments`, returning the `(first, num)` fields of the
`Comments` range. -/
def FileInfo.TrailingComments (f : FileInfo) (t : Nat) : Nat × Nat :=
  let start := sortSearch f.comments.length (fun n =>
    decide (t ≤ (f.com n).attributedToken ∧ (f.tok t).offset < (f.tok (f.com n).index).offset))
  if start = f.comments.length ∨ (f.com start).attributedToken ≠ t then (0, 0)
  else
    (start, ((List.range' start (f.comments.length - start)).takeWhile (fun i =>
      (f.com i).attributedToken == t)).length)

/-! ### The resolver layer (from `resolver.go`) -/

/-- Errors crossing the `Resolver` interface. `notFound` is
`protoregistry.NotFound`; `notExist` carries `os.IsNotExist`-style errors
(the payload distinguishes distinct error values); `other` is any other
opaque error. -/
inductive RErr where
  | notFound
  | notExist (n : Nat)
  | other (n : Nat)
deriving DecidableEq, Repr

/-- `os.IsNotExist`. -/
def RErr.isNotExist : RErr → Bool
  | .notExist _ => true
  | _ => false

/-- `SearchResult` — four optional slots; payloads are opaque handles. -/
structure SearchResult where
  source : Option Nat := none
  ast : Option Nat := none
  proto : Option Nat := none
  desc : Option Nat := none
deriving DecidableEq, Repr

instance : Inhabited SearchResult := ⟨{}⟩

/-- A `Resolver` returns a Go-style `(SearchResult, error)` pair; the error
slot is `none` on success. -/
def Resolver := String → SearchResult × Option RErr

instance : Inhabited Resolver := ⟨fun _ => (default, some RErr.notFound)⟩

/-- The loop of `CompositeResolver.FindFileByPath`, carrying `firstErr`. -/
def compositeGo (path : String) : List Resolver → Option RErr → SearchResult × Option RErr
  | [], firstErr => (default, firstErr)
  | r :: rest, firstErr =>
    match r path with
    | (res, none) => (res, none)
    | (_, some e) => compositeGo path rest (firstErr <|> some e)

/-- `CompositeResolver.FindFileByPath`. -/
def CompositeResolver.FindFileByPath (f : List Resolver) (path : String) :
    SearchResult × Option RErr :=
  if f.length = 0 then (default, some RErr.notFound)
  else compositeGo path f none

/-- `filepath.Join` restricted to the clean paths the claims quantify over. -/
def joinPath (dir path : String) : String := dir ++ "/" ++ path

/-- The Go accessor returns `(io.ReadCloser, error)` with exactly one slot
set; modelled as a sum. -/
inductive AccessResult where
  | ok (reader : Nat)
  | err (e : RErr)
deriving DecidableEq, Repr

/-- `SourceResolver`: import paths plus an accessor. The accessor slot is
modelled as always present (a `nil` accessor in Go falls back to `os.Open`,
which is just another accessor). -/
structure SourceResolver where
  importPaths : List String
  accessor : String → AccessResult

/-- The loop of `SourceResolver.FindFileByPath`, carrying the latest
does-not-exist error `e`. -/
def sourceResolverGo (acc : String → AccessResult) (path : String) :
    List String → Option RErr → SearchResult × Option RErr
  | [], e => (default, e)
  | ip :: rest, e =>
    match acc (joinPath ip path) with
    | .err err =>
      if err.isNotExist then sourceResolverGo acc path rest (some err)
      else (default, some err)
    | .ok reader => ({ source := some reader }, none)

/-- `SourceResolver.FindFileByPath`. -/
def SourceResolver.FindFileByPath (r : SourceResolver) (path : String) :
    SearchResult × Option RErr :=
  if r.importPaths.length = 0 then
    match r.accessor path with
    | .err e => (default, some e)
    | .ok reader => ({ source := some reader }, none)
  else sourceResolverGo r.accessor path r.importPaths none

/-- `WithStandardImports`. The built-in `standardImports` registry lives
outside the visible source, so the wrapper is parametrized by the
registry's lookup function `std`. -/
def WithStandardImports (std : String → Option Nat) (r : Resolver) : Resolver :=
  fun name =>
    match r name with
    | (res, none) => (res, none)
    | (res, some e) =>
      match std name with
      | some d => ({ desc := some d }, none)
      | none => (res, some e)

/-! ### Construction histories and invariants -/

/-- `Built f` holds when `f` is reachable from `NewFileInfo` by successful
`AddLine`/`AddToken`/`AddComment` calls. The `AddComment` step requires
its two arguments to be token slots of `f`, reflecting that in Go the
arguments are `TokenInfo` values previously returned by `AddToken` on the
same `FileInfo` (enforced there by the pointer-identity check). -/
inductive Built : FileInfo → Prop where
  | new (name : String) (contents : List Nat) : Built (NewFileInfo name contents)
  | addLine (f : FileInfo) (offset : Int) (f' : FileInfo) :
      Built f → f.AddLine offset = some f' → Built f'
  | addToken (f : FileInfo) (offset length : Int) (f' : FileInfo) (i : Nat) :
      Built f → f.AddToken offset length = some (f', i) → Built f'
  | addComment (f : FileInfo) (c a : Nat) (f' : FileInfo) (i : Nat) :
      Built f → c < f.tokens.length → a < f.tokens.length →
      f.AddComment c a = some (f', i) → Built f'

/-- The invariants a successful construction history maintains. -/
structure WF (f : FileInfo) : Prop where
  lines_ne : f.lines ≠ []
  lines_head : f.lines.getD 0 0 = 0
  lines_chain : List.Chain' (· < ·) f.lines
  lines_le : ∀ x ∈ f.lines, x ≤ (f.data.length : Int)
  tok_nonneg : ∀ t ∈ f.tokens, 0 ≤ t.offset ∧ 0 ≤ t.length
  tok_bound : ∀ t ∈ f.tokens, t.offset + t.offset ≤ (f.data.length : Int)
  tok_chain : List.Chain' (fun a b => a.offset + a.length - 1 < b.offset) f.tokens
  com_chain : List.Chain' (fun a b => a.index < b.index ∧ a.attributedToken ≤ b.attributedToken)
    f.comments
  com_tok : ∀ c ∈ f.comments, c.index < f.tokens.length ∧ c.attributedToken < f.tokens.length

/-! ### Derived definitions and concrete instances used by the claims -/

/-- Lexicographic order on `(line, col)`. -/
def SourcePos.lexLt (p q : SourcePos) : Prop :=
  p.line < q.line ∨ (p.line = q.line ∧ p.col < q.col)

instance (p q : SourcePos) : Decidable (p.lexLt q) := by
  unfold SourcePos.lexLt
  infer_instance

/-! ### Concrete construction histories used as witnesses -/

def dataW : List Nat := [97, 9, 98, 10, 120, 0, 0, 0, 0, 0, 0, 0]

def fW0 : FileInfo := NewFileInfo "w.proto" dataW

def fW1 : FileInfo :=
  { name := "w.proto", data := dataW, lines := [0, 4], comments := [], tokens := [] }

def fW2 : FileInfo :=
  { name := "w.proto", data := dataW, lines := [0, 4], comments := [],
    tokens := [{ offset := 0, length := 2 }] }

def fW3 : FileInfo :=
  { name := "w.proto", data := dataW, lines := [0, 4], comments := [],
    tokens := [{ offset := 0, length := 2 }, { offset := 4, length := 2 }] }

def fW4 : FileInfo :=
  { name := "w.proto", data := dataW, lines := [0, 4],
    comments := [{ index := 1, attributedToken := 0 }],
    tokens := [{ offset := 0, length := 2 }, { offset := 4, length := 2 }] }

/-- The counterexample index: two zero-length tokens at the same offset,
both accepted by `AddToken`. -/
def fCEmid : FileInfo :=
  { name := "c.proto", data := [0, 0, 0, 0, 0, 0, 0, 0, 0, 0], lines := [0], comments := [],
    tokens := [{ offset := 5, length := 0 }] }

def fCE : FileInfo :=
  { name := "c.proto", data := [0, 0, 0, 0, 0, 0, 0, 0, 0, 0], lines := [0], comments := [],
    tokens := [{ offset := 5, length := 0 }, { offset := 5, length := 0 }] }

/-- The column computation as the spec words it: one-based, a tab at
one-based column `c` advances to `c + (8 - ((c-1) mod 8))`, every other
byte advances by one. -/
def colSpecWalk : List Nat → Nat → Nat
  | [], c => c
  | b :: bs, c => colSpecWalk bs (if b = 9 then c + (8 - (c - 1) % 8) else c + 1)

def resFail1 : Resolver := fun _ => (default, some (RErr.other 1))

def resFail2 : Resolver := fun _ => (default, some (RErr.other 2))

def resOk : Resolver := fun _ => ({ source := some 7 }, none)

def stdW : String → Option Nat := fun s =>
  if s = "google/protobuf/descriptor.proto" then some 3 else none

/-- The spec's literal fallthrough scenario: import paths `/a`, `/b` and
an accessor with content only at `/b/x.proto`. -/
def accW : String → AccessResult := fun s =>
  if s = "/b/x.proto" then .ok 42 else .err (RErr.notExist 0)

def srW : SourceResolver := { importPaths := ["/a", "/b"], accessor := accW }

/-! ### Claim C8: the parse/print round trip

`Print` (ast/print.go) and the test `printAST` walk the AST and print, for
each terminal token, its leading comments, leading whitespace and raw
text, then its trailing comments, then the file's final comments and
whitespace. The AST walker, `FileNode` and the parser live outside the
visible source, so the shape of a successful parse is modelled from the
spec below (`ValidParse`); printing itself follows the source. -/

/-- The bytes a token contributes when printed directly: its leading
whitespace then its raw text. -/
def FileInfo.seg (f : FileInfo) (k : Nat) : List Nat := f.LeadingWhitespace k ++ f.RawText k

/-- `printComments` from the source: each comment of the range prints its
leading whitespace then its raw text — which are exactly the
`LeadingWhitespace`/`RawText` of the comment's own token. -/
def printCommentsBytes (f : FileInfo) (r : Nat × Nat) : List Nat :=
  ((List.range' r.1 r.2).map (fun i => f.seg (f.com i).index)).flatten

/-- Modelled from the spec: `ast.Walk` visits the terminal tokens of the
file in order (the walker itself is not part of the visible source), and
for each one `printAST` emits leading comments, leading whitespace, raw
text, then trailing comments. -/
def printTerminals (f : FileInfo) : List Nat → List Nat
  | [] => []
  | t :: ts => printCommentsBytes f (f.LeadingComments t) ++ f.seg t ++
      printCommentsBytes f (f.TrailingComments t) ++ printTerminals f ts

/-- One past the last byte of token `k`. -/
def endOf (f : FileInfo) (k : Nat) : Int := (f.tok k).offset + (f.tok k).length

/-- Modelled from the spec: the `FileNode`'s final whitespace (not part of
the visible source) is whatever follows the last token; its final comments
are empty because every comment is attributed to some terminal. -/
def finalWhitespace (f : FileInfo) : List Nat :=
  f.data.drop (endOf f (f.tokens.length - 1)).toNat

/-- The full print of a parsed file: every terminal in order, then the
final whitespace. -/
def printAST (f : FileInfo) (terminals : List Nat) : List Nat :=
  printTerminals f terminals ++ finalWhitespace f

/-- Token `k` is a comment token: some comment record points at it. -/
def isCommentTok (f : FileInfo) (k : Nat) : Prop := k ∈ f.comments.map (fun c => c.index)

instance (f : FileInfo) (k : Nat) : Decidable (isCommentTok f k) := by
  unfold isCommentTok
  infer_instance

/-- Modelled from the spec: what a successful parse of a valid source file
guarantees about its `FileInfo` and the terminal tokens of its AST. Tokens
cover the file bytes in order (each inside the data); every token but the
final EOF is nonempty; the terminals are exactly the non-comment tokens in
order, and the file ends with a terminal (EOF); every comment is
attributed to a terminal other than itself with only comment tokens
between the comment and its attributed token. -/
structure ValidParse (f : FileInfo) (terminals : List Nat) : Prop where
  tok_ne : 0 < f.tokens.length
  tok_cover : ∀ k, k < f.tokens.length →
    (f.tok k).offset + (f.tok k).length ≤ (f.data.length : Int)
  tok_pos : ∀ k, k + 1 < f.tokens.length → 0 < (f.tok k).length
  terminals_eq : terminals =
    (List.range f.tokens.length).filter (fun k => !(decide (isCommentTok f k)))
  last_terminal : ¬ isCommentTok f (f.tokens.length - 1)
  attr_terminal : ∀ n, n < f.comments.length → ¬ isCommentTok f (f.com n).attributedToken
  attr_ne : ∀ n, n < f.comments.length → (f.com n).attributedToken ≠ (f.com n).index
  attr_adjacent : ∀ n, n < f.comments.length → ∀ k,
    ((f.com n).index < k ∧ k < (f.com n).attributedToken) ∨
    ((f.com n).attributedToken < k ∧ k < (f.com n).index) → isCommentTok f k

/-- Witness data: `a //x\nz ` followed by padding; tokens `a` (0,1),
comment `//x\n` (2,4), `z` (6,1), EOF (8,0); the comment is attributed to
the `z` token (leading). -/
def dataW8 : List Nat := [97, 32, 47, 47, 120, 10, 122, 32, 0, 0, 0, 0, 0, 0, 0, 0]

def fW8a : FileInfo :=
  { name := "w8.proto", data := dataW8, lines := [0], comments := [],
    tokens := [{ offset := 0, length := 1 }] }

def fW8b : FileInfo :=
  { name := "w8.proto", data := dataW8, lines := [0], comments := [],
    tokens := [{ offset := 0, length := 1 }, { offset := 2, length := 4 }] }

def fW8c : FileInfo :=
  { name := "w8.proto", data := dataW8, lines := [0], comments := [],
    tokens := [{ offset := 0, length := 1 }, { offset := 2, length := 4 },
      { offset := 6, length := 1 }] }

def fW8d : FileInfo :=
  { name := "w8.proto", data := dataW8, lines := [0], comments := [],
    tokens := [{ offset := 0, length := 1 }, { offset := 2, length := 4 },
      { offset := 6, length := 1 }, { offset := 8, length := 0 }] }

def fW8 : FileInfo :=
  { name := "w8.proto", data := dataW8, lines := [0],
    comments := [{ index := 1, attributedToken := 2 }],
    tokens := [{ offset := 0, length := 1 }, { offset := 2, length := 4 },
      { offset := 6, length := 1 }, { offset := 8, length := 0 }] }

/-! ### Proofs -/

theorem sortSearchGo_spec (f : Nat → Bool) (n : Nat)
    (mono : ∀ a b, a ≤ b → b < n → f a = true → f b = true) :
    ∀ fuel i j, j - i ≤ fuel → i ≤ j → j ≤ n →
      (∀ k, k < i → f k = false) →
      (∀ k, j ≤ k → k < n → f k = true) →
      i ≤ sortSearchGo f fuel i j ∧ sortSearchGo f fuel i j ≤ j ∧
      (∀ k, k < sortSearchGo f fuel i j → f k = false) ∧
      (sortSearchGo f fuel i j < n → f (sortSearchGo f fuel i j) = true) := by
  intro fuel
  induction fuel with
  | zero =>
    intro i j hd hij hjn hlo hhi
    have hij' : i = j := by omega
    subst hij'
    refine ⟨le_refl i, le_refl i, hlo, fun h => hhi i (le_refl i) h⟩
  | succ fuel ih =>
    intro i j hd hij hjn hlo hhi
    by_cases h : i < j
    · have hmlt : (i + j) / 2 < j := by omega
      have hmge : i ≤ (i + j) / 2 := by omega
      cases hfm : f ((i + j) / 2) with
      | true =>
        have hres : sortSearchGo f (fuel + 1) i j = sortSearchGo f fuel i ((i + j) / 2) := by
          simp [sortSearchGo, h, hfm]
        rw [hres]
        have := ih i ((i + j) / 2) (by omega) hmge (by omega) hlo
          (fun k hk hk' => mono ((i + j) / 2) k hk hk' hfm)
        exact ⟨this.1, le_trans this.2.1 (le_of_lt hmlt), this.2.2.1, this.2.2.2⟩
      | false =>
        have hres : sortSearchGo f (fuel + 1) i j = sortSearchGo f fuel ((i + j) / 2 + 1) j := by
          simp [sortSearchGo, h, hfm]
        rw [hres]
        have hlo' : ∀ k, k < (i + j) / 2 + 1 → f k = false := by
          intro k hk
          by_contra hkt
          have hkt' : f k = true := by
            cases hfk : f k with
            | true => rfl
            | false => exact absurd hfk hkt
          have := mono k ((i + j) / 2) (by omega) (by omega) hkt'
          rw [this] at hfm
          exact Bool.noConfusion hfm
        have := ih ((i + j) / 2 + 1) j (by omega) (by omega) hjn hlo' hhi
        exact ⟨le_trans (by omega) this.1, this.2.1, this.2.2.1, this.2.2.2⟩
    · have hij' : i = j := by omega
      subst hij'
      have hres : sortSearchGo f (fuel + 1) i i = i := by
        simp [sortSearchGo]
      rw [hres]
      exact ⟨le_refl i, le_refl i, hlo, fun hlt => hhi i (le_refl i) hlt⟩

/-- Characterization of `sortSearch` for a predicate monotone on `[0, n)`:
the result is the least index at which the predicate holds (or `n`). -/
theorem sortSearch_spec (n : Nat) (f : Nat → Bool)
    (mono : ∀ a b, a ≤ b → b < n → f a = true → f b = true) :
    sortSearch n f ≤ n ∧
    (∀ k, k < sortSearch n f → f k = false) ∧
    (sortSearch n f < n → f (sortSearch n f) = true) := by
  have := sortSearchGo_spec f n mono n 0 n (by omega) (by omega) (le_refl n)
    (fun k hk => absurd hk (Nat.not_lt_zero k)) (fun k h1 h2 => absurd h2 (by omega))
  exact ⟨this.2.1, this.2.2.1, this.2.2.2⟩

theorem getD_last_of_ne_nil {α : Type} [Inhabited α] (l : List α) (d : α) (h : l ≠ []) :
    l.getD (l.length - 1) d = l.getLast h := by
  rw [List.getLast_eq_getElem]
  have hlt : l.length - 1 < l.length := by
    cases l with
    | nil => exact absurd rfl h
    | cons a as => simp
  rw [List.getD_eq_getElem l d hlt]

theorem chain'_append_singleton {α : Type} (R : α → α → Prop) (l : List α) (x : α)
    (hl : List.Chain' R l) (hx : ∀ a, l.getLast? = some a → R a x) :
    List.Chain' R (l ++ [x]) := by
  rw [List.chain'_append]
  refine ⟨hl, List.chain'_singleton x, ?_⟩
  intro a ha y hy
  simp at hy
  subst hy
  exact hx a ha

/-- Inversion for a successful `AddLine`. -/
theorem addLine_inv (f : FileInfo) (offset : Int) (f' : FileInfo)
    (h : f.AddLine offset = some f') :
    ¬ offset < 0 ∧ ¬ offset > (f.data.length : Int) ∧
    ¬ (0 < f.lines.length ∧ offset ≤ f.lines.getD (f.lines.length - 1) 0) ∧
    f' = { f with lines := f.lines ++ [offset] } := by
  unfold FileInfo.AddLine at h
  split at h
  next hc => simp at h
  next hc =>
    split at h
    next hc2 => simp at h
    next hc2 =>
      split at h
      next hc3 => simp at h
      next hc3 => exact ⟨hc, hc2, hc3, (Option.some.injEq _ _ ▸ h).symm⟩

/-- Inversion for a successful `AddToken`. -/
theorem addToken_inv (f : FileInfo) (offset length : Int) (f' : FileInfo) (i : Nat)
    (h : f.AddToken offset length = some (f', i)) :
    ¬ offset < 0 ∧ ¬ length < 0 ∧ ¬ offset + offset > (f.data.length : Int) ∧
    ¬ (0 < f.tokens.length ∧
        offset ≤ (f.tokens.getD (f.tokens.length - 1) default).offset +
          (f.tokens.getD (f.tokens.length - 1) default).length - 1) ∧
    f' = { f with tokens := f.tokens ++ [{ offset := offset, length := length }] } ∧
    i = f.tokens.length := by
  unfold FileInfo.AddToken at h
  split at h
  next hc => simp at h
  next hc =>
    split at h
    next hc2 => simp at h
    next hc2 =>
      split at h
      next hc3 => simp at h
      next hc3 =>
        split at h
        next hc4 => simp at h
        next hc4 =>
          have h' := Option.some.injEq _ _ ▸ h
          exact ⟨hc, hc2, hc3, hc4, congrArg Prod.fst h'.symm, congrArg Prod.snd h'.symm⟩

/-- Inversion for a successful `AddComment`. -/
theorem addComment_inv (f : FileInfo) (c a : Nat) (f' : FileInfo) (i : Nat)
    (h : f.AddComment c a = some (f', i)) :
    ¬ (0 < f.comments.length ∧
        (c ≤ (f.comments.getD (f.comments.length - 1) default).index ∨
         a < (f.comments.getD (f.comments.length - 1) default).attributedToken)) ∧
    f' = { f with comments := f.comments ++ [{ index := c, attributedToken := a }] } ∧
    i = f.comments.length := by
  unfold FileInfo.AddComment at h
  split at h
  next hc => simp at h
  next hc =>
    have h' := Option.some.injEq _ _ ▸ h
    exact ⟨hc, congrArg Prod.fst h'.symm, congrArg Prod.snd h'.symm⟩

/-- Every `Built` index satisfies the invariants. -/
theorem built_wf (f : FileInfo) (hf : Built f) : WF f := by
  induction hf with
  | new name contents =>
    refine ⟨by simp [NewFileInfo], by simp [NewFileInfo], ?_, ?_, ?_, ?_, ?_, ?_, ?_⟩ <;>
      simp [NewFileInfo]
  | addLine f offset f' hb heq ih =>
    obtain ⟨h1, h2, h3, rfl⟩ := addLine_inv f offset f' heq
    have hne := ih.lines_ne
    have hlast : f.lines.getD (f.lines.length - 1) 0 < offset := by
      by_contra hcon
      exact h3 ⟨List.length_pos.mpr hne, by omega⟩
    refine ⟨by simp, ?_, ?_, ?_, ih.tok_nonneg, ih.tok_bound, ih.tok_chain, ih.com_chain,
      ih.com_tok⟩
    · show (f.lines ++ [offset]).getD 0 0 = 0
      have := ih.lines_head
      cases hl : f.lines with
      | nil => exact absurd hl hne
      | cons x xs =>
        rw [hl] at this
        simpa using this
    · refine chain'_append_singleton _ _ _ ih.lines_chain ?_
      intro x hx
      have : x = f.lines.getD (f.lines.length - 1) 0 := by
        rw [getD_last_of_ne_nil f.lines 0 hne]
        rw [List.getLast?_eq_getLast f.lines hne] at hx
        exact (Option.some.injEq _ _ ▸ hx).symm
      omega
    · intro x hx
      simp only [List.mem_append, List.mem_singleton] at hx
      rcases hx with hx | hx
      · exact ih.lines_le x hx
      · show x ≤ (f.data.length : Int)
        omega
  | addToken f offset length f' i hb heq ih =>
    obtain ⟨h1, h2, h3, h4, rfl, -⟩ := addToken_inv f offset length f' i heq
    refine ⟨ih.lines_ne, ih.lines_head, ih.lines_chain, ih.lines_le, ?_, ?_, ?_, ih.com_chain, ?_⟩
    · intro t ht
      simp only [List.mem_append, List.mem_singleton] at ht
      rcases ht with ht | ht
      · exact ih.tok_nonneg t ht
      · subst ht
        exact ⟨by show (0 : Int) ≤ offset; omega, by show (0 : Int) ≤ length; omega⟩
    · intro t ht
      simp only [List.mem_append, List.mem_singleton] at ht
      rcases ht with ht | ht
      · exact ih.tok_bound t ht
      · subst ht
        show offset + offset ≤ (f.data.length : Int)
        omega
    · refine chain'_append_singleton _ _ _ ih.tok_chain ?_
      intro x hx
      have hne : f.tokens ≠ [] := by
        intro hcn
        rw [hcn] at hx
        simp at hx
      have : x = f.tokens.getD (f.tokens.length - 1) default := by
        rw [getD_last_of_ne_nil f.tokens default hne]
        rw [List.getLast?_eq_getLast f.tokens hne] at hx
        exact (Option.some.injEq _ _ ▸ hx).symm
      subst this
      show (f.tokens.getD (f.tokens.length - 1) default).offset +
        (f.tokens.getD (f.tokens.length - 1) default).length - 1 < offset
      by_contra hcon
      exact h4 ⟨List.length_pos.mpr hne, by omega⟩
    · intro x hx
      have hxt := ih.com_tok x hx
      constructor
      · show x.index < (f.tokens ++ [({ offset := offset, length := length } : tokenInfo)]).length
        rw [List.length_append]
        omega
      · show x.attributedToken <
          (f.tokens ++ [({ offset := offset, length := length } : tokenInfo)]).length
        rw [List.length_append]
        omega
  | addComment f c a f' i hb hc ha heq ih =>
    obtain ⟨h1, rfl, -⟩ := addComment_inv f c a f' i heq
    refine ⟨ih.lines_ne, ih.lines_head, ih.lines_chain, ih.lines_le, ih.tok_nonneg,
      ih.tok_bound, ih.tok_chain, ?_, ?_⟩
    · refine chain'_append_singleton _ _ _ ih.com_chain ?_
      intro x hx
      have hne : f.comments ≠ [] := by
        intro hcn
        rw [hcn] at hx
        simp at hx
      have : x = f.comments.getD (f.comments.length - 1) default := by
        rw [getD_last_of_ne_nil f.comments default hne]
        rw [List.getLast?_eq_getLast f.comments hne] at hx
        exact (Option.some.injEq _ _ ▸ hx).symm
      subst this
      show (f.comments.getD (f.comments.length - 1) default).index < c ∧
        (f.comments.getD (f.comments.length - 1) default).attributedToken ≤ a
      constructor
      · by_contra hcon
        exact h1 ⟨List.length_pos.mpr hne, Or.inl (by omega)⟩
      · by_contra hcon
        exact h1 ⟨List.length_pos.mpr hne, Or.inr (by omega)⟩
    · intro x hx
      simp only [List.mem_append, List.mem_singleton] at hx
      rcases hx with hx | hx
      · exact ih.com_tok x hx
      · subst hx; exact ⟨hc, ha⟩

/-! ### Indexed consequences of the invariants -/

theorem chain'_getD {α : Type} [Inhabited α] {R : α → α → Prop} {l : List α}
    (h : List.Chain' R l) (i : Nat) (hi : i + 1 < l.length) (d : α) :
    R (l.getD i d) (l.getD (i + 1) d) := by
  rw [List.getD_eq_getElem l d (by omega), List.getD_eq_getElem l d hi]
  have := List.chain'_iff_get.mp h i (by omega)
  simpa using this

theorem getD_mem {α : Type} [Inhabited α] (l : List α) (i : Nat) (hi : i < l.length) (d : α) :
    l.getD i d ∈ l := by
  rw [List.getD_eq_getElem l d hi]
  exact List.getElem_mem hi

/-- Line offsets are strictly increasing in the index. -/
theorem WF.lines_strict {f : FileInfo} (hw : WF f) :
    ∀ i j, i < j → j < f.lines.length → f.lines.getD i 0 < f.lines.getD j 0 := by
  intro i j hij hj
  induction j with
  | zero => omega
  | succ j ih =>
    have hstep : f.lines.getD j 0 < f.lines.getD (j + 1) 0 :=
      chain'_getD hw.lines_chain j hj 0
    by_cases hij' : i < j
    · exact lt_trans (ih hij' (by omega)) hstep
    · have : i = j := by omega
      subst this
      exact hstep

/-- Every line offset is nonnegative (the first is 0 and they increase). -/
theorem WF.lines_nonneg {f : FileInfo} (hw : WF f) :
    ∀ i, i < f.lines.length → 0 ≤ f.lines.getD i 0 := by
  intro i hi
  cases i with
  | zero => rw [hw.lines_head]
  | succ i =>
    have := hw.lines_strict 0 (i + 1) (by omega) hi
    rw [hw.lines_head] at this
    omega

/-- End-before-start separation of tokens: an earlier token's
`offset+length` never exceeds a later token's `offset`. -/
theorem WF.tok_end_le {f : FileInfo} (hw : WF f) :
    ∀ i j, i < j → j < f.tokens.length →
      (f.tok i).offset + (f.tok i).length ≤ (f.tok j).offset := by
  intro i j hij hj
  induction j with
  | zero => omega
  | succ j ih =>
    have hstep : (f.tok j).offset + (f.tok j).length - 1 < (f.tok (j + 1)).offset :=
      chain'_getD hw.tok_chain j hj default
    by_cases hij' : i < j
    · have hjlen : 0 ≤ (f.tok j).length :=
        (hw.tok_nonneg _ (getD_mem f.tokens j (by omega) default)).2
      have := ih hij' (by omega)
      show (f.tok i).offset + (f.tok i).length ≤ (f.tok (j + 1)).offset
      omega
    · have : i = j := by omega
      subst this
      show (f.tok i).offset + (f.tok i).length ≤ (f.tok (i + 1)).offset
      omega

/-- Token offsets are nondecreasing in the index. -/
theorem WF.tok_off_mono {f : FileInfo} (hw : WF f) :
    ∀ i j, i ≤ j → j < f.tokens.length → (f.tok i).offset ≤ (f.tok j).offset := by
  intro i j hij hj
  by_cases h : i < j
  · have hlen : 0 ≤ (f.tok i).length :=
      (hw.tok_nonneg _ (getD_mem f.tokens i (by omega) default)).2
    have := hw.tok_end_le i j h hj
    omega
  · have : i = j := by omega
    subst this
    exact le_refl _

/-- Comment slot indices are strictly increasing. -/
theorem WF.com_index_strict {f : FileInfo} (hw : WF f) :
    ∀ i j, i < j → j < f.comments.length → (f.com i).index < (f.com j).index := by
  intro i j hij hj
  induction j with
  | zero => omega
  | succ j ih =>
    have hstep := chain'_getD hw.com_chain j hj default
    by_cases hij' : i < j
    · exact lt_trans (ih hij' (by omega)) hstep.1
    · have : i = j := by omega
      subst this
      exact hstep.1

/-- Comment attribution indices are nondecreasing. -/
theorem WF.com_attr_mono {f : FileInfo} (hw : WF f) :
    ∀ i j, i ≤ j → j < f.comments.length →
      (f.com i).attributedToken ≤ (f.com j).attributedToken := by
  intro i j hij hj
  induction j with
  | zero =>
    have : i = 0 := by omega
    subst this
    exact le_refl _
  | succ j ih =>
    have hstep := chain'_getD hw.com_chain j hj default
    by_cases hij' : i ≤ j
    · exact le_trans (ih hij' (by omega)) hstep.2
    · have : i = j + 1 := by omega
      subst this
      exact le_refl _

/-- The offset of the token a comment refers to, nondecreasing along the
comment sequence. -/
theorem WF.com_tok_off_mono {f : FileInfo} (hw : WF f) :
    ∀ i j, i ≤ j → j < f.comments.length →
      (f.tok (f.com i).index).offset ≤ (f.tok (f.com j).index).offset := by
  intro i j hij hj
  by_cases h : i < j
  · have hidx := hw.com_index_strict i j h hj
    have hjtok := (hw.com_tok _ (getD_mem f.comments j hj default)).1
    exact hw.tok_off_mono _ _ (le_of_lt hidx) hjtok
  · have : i = j := by omega
    subst this
    exact le_refl _

/-! ### The position function: line lookup and column walk -/

/-- Under the invariants, `pos` picks the one-based line number bracketing
the offset: `lines[line-1] ≤ offset`, and `offset < lines[line]` when a
next line exists. -/
theorem pos_line_bracket (f : FileInfo) (hw : WF f) (offset : Int) (h0 : 0 ≤ offset) :
    1 ≤ (f.pos offset).line ∧ (f.pos offset).line ≤ f.lines.length ∧
    f.lines.getD ((f.pos offset).line - 1) 0 ≤ offset ∧
    ((f.pos offset).line < f.lines.length →
      offset < f.lines.getD ((f.pos offset).line) 0) := by
  have hmono : ∀ a b, a ≤ b → b < f.lines.length →
      (fun n => decide (f.lines.getD n 0 > offset)) a = true →
      (fun n => decide (f.lines.getD n 0 > offset)) b = true := by
    intro a b hab hb ha
    simp only [decide_eq_true_eq] at ha ⊢
    by_cases h : a < b
    · exact lt_of_lt_of_le ha (le_of_lt (hw.lines_strict a b h hb))
    · have : a = b := by omega
      subst this
      exact ha
  have hs := sortSearch_spec f.lines.length (fun n => decide (f.lines.getD n 0 > offset)) hmono
  have hline : (f.pos offset).line =
      sortSearch f.lines.length (fun n => decide (f.lines.getD n 0 > offset)) := rfl
  rw [hline]
  set r := sortSearch f.lines.length (fun n => decide (f.lines.getD n 0 > offset)) with hr
  have hlen : 0 < f.lines.length := List.length_pos.mpr hw.lines_ne
  have hr1 : 1 ≤ r := by
    by_contra hcon
    have hr0 : r = 0 := by omega
    have := hs.2.2 (by omega)
    rw [hr0] at this
    simp only [decide_eq_true_eq] at this
    rw [hw.lines_head] at this
    omega
  refine ⟨hr1, hs.1, ?_, ?_⟩
  · have hfalse := hs.2.1 (r - 1) (by omega)
    have := of_decide_eq_false hfalse
    omega
  · intro hrl
    have := of_decide_eq_true (hs.2.2 hrl)
    omega

/-- `colWalk` over an appended list runs the two pieces in sequence. -/
theorem colWalk_append (l1 l2 : List Nat) (c : Nat) :
    colWalk (l1 ++ l2) c = colWalk l2 (colWalk l1 c) := by
  induction l1 generalizing c with
  | nil => rfl
  | cons b bs ih => simp only [List.cons_append, colWalk]; exact ih _

/-- Each byte advances the column by at least one. -/
theorem colWalk_ge (l : List Nat) (c : Nat) : c + l.length ≤ colWalk l c := by
  induction l generalizing c with
  | nil => simp [colWalk]
  | cons b bs ih =>
    simp only [colWalk, List.length_cons]
    have := ih (if b = 9 then c + (8 - c % 8) else c + 1)
    have hstep : c + 1 ≤ if b = 9 then c + (8 - c % 8) else c + 1 := by
      split
      · have : c % 8 < 8 := Nat.mod_lt c (by omega)
        omega
      · omega
    omega

/-- `pos` is strictly monotone (lexicographically) in the offset, for
offsets inside the data. -/
theorem pos_strict_mono (f : FileInfo) (hw : WF f) (o1 o2 : Int)
    (h0 : 0 ≤ o1) (h12 : o1 < o2) (h2 : o2 ≤ (f.data.length : Int)) :
    (f.pos o1).lexLt (f.pos o2) := by
  have hb1 := pos_line_bracket f hw o1 h0
  have hb2 := pos_line_bracket f hw o2 (by omega)
  have hmono1 : ∀ a b, a ≤ b → b < f.lines.length →
      (fun n => decide (f.lines.getD n 0 > o1)) a = true →
      (fun n => decide (f.lines.getD n 0 > o1)) b = true := by
    intro a b hab hb ha
    simp only [decide_eq_true_eq] at ha ⊢
    by_cases h : a < b
    · exact lt_of_lt_of_le ha (le_of_lt (hw.lines_strict a b h hb))
    · have : a = b := by omega
      subst this
      exact ha
  have hs1 := sortSearch_spec f.lines.length (fun n => decide (f.lines.getD n 0 > o1)) hmono1
  have hL1 : (f.pos o1).line =
      sortSearch f.lines.length (fun n => decide (f.lines.getD n 0 > o1)) := rfl
  have hL2 : (f.pos o2).line =
      sortSearch f.lines.length (fun n => decide (f.lines.getD n 0 > o2)) := rfl
  -- the two line numbers are ordered
  have hline_le : (f.pos o1).line ≤ (f.pos o2).line := by
    by_contra hcon
    push_neg at hcon
    have hlt : (f.pos o2).line < (f.pos o1).line := hcon
    have hfalse : (fun n => decide (f.lines.getD n 0 > o1)) ((f.pos o2).line) = false := by
      rw [hL1] at hlt
      exact hs1.2.1 _ hlt
    have hlen2 : (f.pos o2).line < f.lines.length := by
      have := hb1.2.1
      omega
    have htrue := hb2.2.2.2 hlen2
    have := of_decide_eq_false hfalse
    simp only [gt_iff_lt] at this
    omega
  by_cases heq : (f.pos o1).line = (f.pos o2).line
  · -- same line: the column walk for o2 strictly extends the one for o1
    right
    refine ⟨heq, ?_⟩
    have hstart_le : f.lines.getD ((f.pos o1).line - 1) 0 ≤ o1 := hb1.2.2.1
    set start := f.lines.getD ((f.pos o1).line - 1) 0 with hstart
    have hstart_nonneg : 0 ≤ start := by
      have := hw.lines_nonneg ((f.pos o1).line - 1) (by have := hb1.2.1; omega)
      omega
    have hcol1 : (f.pos o1).col =
        colWalk ((f.data.drop start.toNat).take (o1 - start).toNat) 0 + 1 := rfl
    have hcol2 : (f.pos o2).col =
        colWalk ((f.data.drop ((f.lines.getD ((f.pos o2).line - 1) 0)).toNat).take
          (o2 - (f.lines.getD ((f.pos o2).line - 1) 0)).toNat) 0 + 1 := rfl
    rw [← heq] at hcol2
    rw [hcol1, hcol2]
    set l := f.data.drop start.toNat with hl
    have hn12 : (o1 - start).toNat < (o2 - start).toNat := by omega
    have hsplit : l.take (o2 - start).toNat =
        l.take (o1 - start).toNat ++
          ((l.drop (o1 - start).toNat).take ((o2 - start).toNat - (o1 - start).toNat)) := by
      rw [← List.take_add]
      congr 1
      omega
    rw [hsplit, colWalk_append]
    have hmidlen : 1 ≤ ((l.drop (o1 - start).toNat).take
        ((o2 - start).toNat - (o1 - start).toNat)).length := by
      rw [List.length_take, List.length_drop]
      have hldata : l.length = f.data.length - start.toNat := by
        rw [hl, List.length_drop]
      omega
    have := colWalk_ge ((l.drop (o1 - start).toNat).take
      ((o2 - start).toNat - (o1 - start).toNat)) (colWalk (l.take (o1 - start).toNat) 0)
    omega
  · left
    omega

theorem built_fW1 : Built fW1 :=
  Built.addLine fW0 4 fW1 (Built.new "w.proto" dataW) (by decide)

theorem built_fW2 : Built fW2 :=
  Built.addToken fW1 0 2 fW2 0 built_fW1 (by decide)

theorem built_fW3 : Built fW3 :=
  Built.addToken fW2 4 2 fW3 1 built_fW2 (by decide)

theorem built_fW4 : Built fW4 :=
  Built.addComment fW3 1 0 fW4 0 built_fW3 (by decide) (by decide) (by decide)


theorem built_fCE : Built fCE :=
  Built.addToken fCEmid 5 0 fCE 1
    (Built.addToken (NewFileInfo "c.proto" [0, 0, 0, 0, 0, 0, 0, 0, 0, 0]) 5 0 fCEmid 0
      (Built.new "c.proto" [0, 0, 0, 0, 0, 0, 0, 0, 0, 0]) (by decide))
    (by decide)

/-! ### Claim C1: the AddToken bounds check -/

/-- C1 (code bug): `AddToken` is specified to fail when `offset+length`
exceeds the file size, and its own panic message prints `offset+length`,
but the implemented check compares `offset+offset`. On a 4-byte file,
`AddToken(1, 10)` succeeds even though `offset+length = 11 > 4`. -/
theorem addToken_bounds_check_bug :
    ((NewFileInfo "test.proto" [0, 0, 0, 0]).AddToken 1 10).isSome = true ∧
    (1 + 10 : Int) > ((NewFileInfo "test.proto" [0, 0, 0, 0]).data.length : Int) ∧
    ¬ (1 : Int) < 0 ∧ ¬ (10 : Int) < 0 ∧
    (NewFileInfo "test.proto" [0, 0, 0, 0]).tokens.length = 0 := by
  decide

/-! ### Claim C6: the position computation -/

theorem colWalk_succ_eq_spec (l : List Nat) (c : Nat) :
    colWalk l c + 1 = colSpecWalk l (c + 1) := by
  induction l generalizing c with
  | nil => rfl
  | cons b bs ih =>
    simp only [colWalk, colSpecWalk]
    rw [ih]
    congr 1
    split
    · simp only [Nat.add_sub_cancel]
      omega
    · omega

/-- C6: for an offset inside the data of a well-formed index, `pos` returns
the one-based line bracketing the offset (the binary-search result) and the
one-based column computed with tab stops of 8, per the spec's formula. -/
theorem position_spec (f : FileInfo) (hf : Built f) (offset : Int)
    (h0 : 0 ≤ offset) (h1 : offset ≤ (f.data.length : Int)) :
    1 ≤ (f.pos offset).line ∧ (f.pos offset).line ≤ f.lines.length ∧
    f.lines.getD ((f.pos offset).line - 1) 0 ≤ offset ∧
    ((f.pos offset).line < f.lines.length →
      offset < f.lines.getD ((f.pos offset).line) 0) ∧
    (f.pos offset).col =
      colSpecWalk ((f.data.drop (f.lines.getD ((f.pos offset).line - 1) 0).toNat).take
        (offset - f.lines.getD ((f.pos offset).line - 1) 0).toNat) 1 ∧
    (f.pos offset).offset = offset ∧ (f.pos offset).filename = f.name := by
  have hw := built_wf f hf
  have hb := pos_line_bracket f hw offset h0
  refine ⟨hb.1, hb.2.1, hb.2.2.1, hb.2.2.2, ?_, rfl, rfl⟩
  exact colWalk_succ_eq_spec _ 0

/-- C6 witness: a file `a\tb\nx...`, queried at offset 3 — the tab jumps
from column 2 to column 9. -/
theorem position_spec_witness :
    (Built fW1 ∧ (0 : Int) ≤ 3 ∧ (3 : Int) ≤ (fW1.data.length : Int)) ∧
    (1 ≤ (fW1.pos 3).line ∧ (fW1.pos 3).line ≤ fW1.lines.length ∧
     fW1.lines.getD ((fW1.pos 3).line - 1) 0 ≤ 3 ∧
     ((fW1.pos 3).line < fW1.lines.length →
       (3 : Int) < fW1.lines.getD ((fW1.pos 3).line) 0) ∧
     (fW1.pos 3).col =
       colSpecWalk ((fW1.data.drop (fW1.lines.getD ((fW1.pos 3).line - 1) 0).toNat).take
         ((3 : Int) - fW1.lines.getD ((fW1.pos 3).line - 1) 0).toNat) 1 ∧
     (fW1.pos 3).offset = 3 ∧ (fW1.pos 3).filename = fW1.name) :=
  ⟨⟨built_fW1, by decide, by decide⟩,
    position_spec fW1 built_fW1 3 (by decide) (by decide)⟩

/-! ### Claim C7: position monotonicity across tokens -/

/-- C7 as stated is false: `AddToken` accepts zero-length tokens (the
check only requires the new offset to exceed `prev.offset+prev.length-1`),
so two successive zero-length tokens may sit at the same offset and get
equal positions. Here both tokens of `fCE` are `(offset 5, length 0)`. -/
theorem position_monotonicity_counterexample :
    Built fCE ∧ (0 : Nat) < 1 ∧ 1 < fCE.tokens.length ∧
    ¬ (fCE.pos (fCE.tok 0).offset).lexLt (fCE.pos (fCE.tok 1).offset) :=
  ⟨built_fCE, by decide, by decide, by decide⟩

/-- C7 amended: positions of successfully added tokens are strictly
increasing in the token index provided the earlier token has positive
length (zero-length tokens only guarantee non-decrease). -/
theorem position_monotonicity (f : FileInfo) (hf : Built f) (i j : Nat)
    (hij : i < j) (hj : j < f.tokens.length) (hpos : 0 < (f.tok i).length) :
    (f.pos (f.tok i).offset).lexLt (f.pos (f.tok j).offset) := by
  have hw := built_wf f hf
  have hsep := hw.tok_end_le i j hij hj
  have hnn := hw.tok_nonneg (f.tok i) (getD_mem f.tokens i (by omega) default)
  have hbound := hw.tok_bound (f.tok j) (getD_mem f.tokens j hj default)
  have hjnn := hw.tok_nonneg (f.tok j) (getD_mem f.tokens j hj default)
  exact pos_strict_mono f hw (f.tok i).offset (f.tok j).offset hnn.1 (by omega) (by omega)

/-- C7 witness: in `fW3` the tokens at offsets 0 and 4 (both length 2) have
strictly increasing positions. -/
theorem position_monotonicity_witness :
    (Built fW3 ∧ (0 : Nat) < 1 ∧ 1 < fW3.tokens.length ∧ 0 < (fW3.tok 0).length) ∧
    (fW3.pos (fW3.tok 0).offset).lexLt (fW3.pos (fW3.tok 1).offset) :=
  ⟨⟨built_fW3, by decide, by decide, by decide⟩,
    position_monotonicity fW3 built_fW3 0 1 (by decide) (by decide) (by decide)⟩

/-! ### Claim C10: the line table -/

/-- C10: a fresh index has line table `[0]`; on any index reachable by
successful calls, `AddLine 0` fails, the table still starts at 0 and is
strictly increasing. -/
theorem line_table_invariant (name : String) (contents : List Nat)
    (f : FileInfo) (hf : Built f) :
    (NewFileInfo name contents).lines = [0] ∧
    f.AddLine 0 = none ∧
    f.lines.getD 0 0 = 0 ∧ List.Chain' (· < ·) f.lines := by
  have hw := built_wf f hf
  refine ⟨rfl, ?_, hw.lines_head, hw.lines_chain⟩
  have hlen : 0 < f.lines.length := List.length_pos.mpr hw.lines_ne
  have hlast : 0 ≤ f.lines.getD (f.lines.length - 1) 0 := hw.lines_nonneg _ (by omega)
  unfold FileInfo.AddLine
  rw [if_neg (by omega), if_neg (by omega), if_pos ⟨hlen, hlast⟩]

/-- C10 witness: on `fW1` (lines `[0, 4]`), `AddLine 0` fails. -/
theorem line_table_invariant_witness :
    Built fW1 ∧
    ((NewFileInfo "n.proto" [0, 0]).lines = [0] ∧
     fW1.AddLine 0 = none ∧
     fW1.lines.getD 0 0 = 0 ∧ List.Chain' (· < ·) fW1.lines) :=
  ⟨built_fW1, line_table_invariant "n.proto" [0, 0] fW1 built_fW1⟩

/-! ### Claim C3: composite resolvers -/

theorem compositeGo_first_success (path : String) :
    ∀ (rs : List Resolver) (firstErr : Option RErr) (i : Nat), i < rs.length →
      (∀ j, j < i → ((rs.getD j default) path).2.isSome = true) →
      ((rs.getD i default) path).2 = none →
      compositeGo path rs firstErr = (((rs.getD i default) path).1, none) := by
  intro rs
  induction rs with
  | nil => intro firstErr i hi; simp at hi
  | cons r rest ih =>
    intro firstErr i hi hprev hnone
    cases i with
    | zero =>
      simp only [List.getD_cons_zero] at hnone ⊢
      unfold compositeGo
      cases hr : r path with
      | mk res err =>
        rw [hr] at hnone
        simp only at hnone
        subst hnone
        simp
    | succ k =>
      have h0 := hprev 0 (by omega)
      simp only [List.getD_cons_zero] at h0
      unfold compositeGo
      cases hr : r path with
      | mk res err =>
        rw [hr] at h0
        cases err with
        | none => simp at h0
        | some e =>
          simp only
          have := ih (firstErr <|> some e) k (by simpa using hi)
            (fun j hj => by
              have := hprev (j + 1) (by omega)
              simpa using this)
            (by simpa using hnone)
          simpa using this

theorem compositeGo_all_fail (path : String) :
    ∀ (rs : List Resolver) (e0 : RErr),
      (∀ j, j < rs.length → ((rs.getD j default) path).2.isSome = true) →
      compositeGo path rs (some e0) = (default, some e0) := by
  intro rs
  induction rs with
  | nil => intro e0 hall; rfl
  | cons r rest ih =>
    intro e0 hall
    have h0 := hall 0 (by simp)
    simp only [List.getD_cons_zero] at h0
    unfold compositeGo
    cases hr : r path with
    | mk res err =>
      rw [hr] at h0
      cases err with
      | none => simp at h0
      | some e =>
        simp only
        have hrec := ih e0 (fun j hj => by
          have := hall (j + 1) (by simp only [List.length_cons]; omega)
          simpa using this)
        exact hrec

/-- C3: a composite resolver queries its members in order and returns the
first success; if every member fails it returns the FIRST error observed;
an empty composite returns NotFound. -/
theorem composite_resolver_spec :
    (∀ path : String,
      CompositeResolver.FindFileByPath [] path = (default, some RErr.notFound)) ∧
    (∀ (rs : List Resolver) (path : String) (i : Nat), i < rs.length →
      (∀ j, j < i → ((rs.getD j default) path).2.isSome = true) →
      ((rs.getD i default) path).2 = none →
      CompositeResolver.FindFileByPath rs path = (((rs.getD i default) path).1, none)) ∧
    (∀ (rs : List Resolver) (path : String), rs ≠ [] →
      (∀ j, j < rs.length → ((rs.getD j default) path).2.isSome = true) →
      CompositeResolver.FindFileByPath rs path = (default, ((rs.getD 0 default) path).2)) := by
  refine ⟨fun path => rfl, ?_, ?_⟩
  · intro rs path i hi hprev hnone
    unfold CompositeResolver.FindFileByPath
    rw [if_neg (by intro hc; rw [List.length_eq_zero] at hc; subst hc; simp at hi)]
    exact compositeGo_first_success path rs none i hi hprev hnone
  · intro rs path hne hall
    unfold CompositeResolver.FindFileByPath
    rw [if_neg (by intro hc; exact hne (List.length_eq_zero.mp hc))]
    cases rs with
    | nil => exact absurd rfl hne
    | cons r rest =>
      have h0 := hall 0 (by simp)
      simp only [List.getD_cons_zero] at h0 ⊢
      unfold compositeGo
      cases hr : r path with
      | mk res err =>
        rw [hr] at h0
        cases err with
        | none => simp at h0
        | some e =>
          simp only
          have hrec := compositeGo_all_fail path rest e (fun j hj => by
            have := hall (j + 1) (by simp only [List.length_cons]; omega)
            simpa using this)
          exact hrec


/-- C3 witness: `[fail(err 1), ok]` returns the success of the second
member; `[fail(err 1), fail(err 2)]` returns error 1, not error 2. -/
theorem composite_resolver_spec_witness :
    ((resFail1 "p").2.isSome = true ∧ (resOk "p").2 = none ∧
     CompositeResolver.FindFileByPath [resFail1, resOk] "p" =
       ((([resFail1, resOk].getD 1 default) "p").1, none)) ∧
    CompositeResolver.FindFileByPath [resFail1, resFail2] "p" =
      (default, (([resFail1, resFail2].getD 0 default) "p").2) :=
  ⟨⟨rfl, rfl,
    composite_resolver_spec.2.1 [resFail1, resOk] "p" 1 (by decide)
      (fun j hj => by
        have hj0 : j = 0 := by omega
        subst hj0
        rfl)
      rfl⟩,
   composite_resolver_spec.2.2 [resFail1, resFail2] "p" (by simp)
     (fun j hj => by
       have hj2 : j < 2 := by simpa using hj
       have hj01 : j = 0 ∨ j = 1 := by omega
       rcases hj01 with hj0 | hj1
       · subst hj0; rfl
       · subst hj1; rfl)⟩

/-! ### Claims C4 and C9: the standard-imports wrapper -/

/-- C4: the wrapper returns the underlying resolver's result unchanged on
success; on failure with the path in the registry, it returns a result
with only the `Desc` slot set and no error. -/
theorem with_standard_imports_spec :
    ∀ (std : String → Option Nat) (r : Resolver) (p : String),
      ((r p).2 = none → WithStandardImports std r p = r p) ∧
      (∀ e d, (r p).2 = some e → std p = some d →
        WithStandardImports std r p = ({ desc := some d }, none)) := by
  intro std r p
  constructor
  · intro hnone
    unfold WithStandardImports
    cases hr : r p with
    | mk res err =>
      rw [hr] at hnone
      simp only at hnone
      subst hnone
      simp
  · intro e d herr hstd
    unfold WithStandardImports
    cases hr : r p with
    | mk res err =>
      rw [hr] at herr
      simp only at herr
      subst herr
      simp only [hstd]


/-- C4 witness: wrapping does not change a success, and serves the
registry descriptor when the wrapped resolver fails on a registry path. -/
theorem with_standard_imports_spec_witness :
    ((resOk "p").2 = none ∧ WithStandardImports stdW resOk "p" = resOk "p") ∧
    ((resFail1 "google/protobuf/descriptor.proto").2 = some (RErr.other 1) ∧
     stdW "google/protobuf/descriptor.proto" = some 3 ∧
     WithStandardImports stdW resFail1 "google/protobuf/descriptor.proto" =
       ({ desc := some 3 }, none)) :=
  ⟨⟨rfl, (with_standard_imports_spec stdW resOk "p").1 rfl⟩,
   ⟨rfl, by decide,
    (with_standard_imports_spec stdW resFail1 "google/protobuf/descriptor.proto").2
      (RErr.other 1) 3 rfl (by decide)⟩⟩

/-- C9: when the underlying resolver fails and the path is not in the
registry, the wrapper passes both the result and the error through
unchanged. -/
theorem with_standard_imports_passthrough :
    ∀ (std : String → Option Nat) (r : Resolver) (p : String) (e : RErr),
      (r p).2 = some e → std p = none → WithStandardImports std r p = r p := by
  intro std r p e herr hstd
  unfold WithStandardImports
  cases hr : r p with
  | mk res err =>
    rw [hr] at herr
    simp only at herr
    subst herr
    simp only [hstd]

/-- C9 witness: a failing resolver on a path outside the registry keeps
its own error through the wrapper. -/
theorem with_standard_imports_passthrough_witness :
    (resFail1 "x.proto").2 = some (RErr.other 1) ∧ stdW "x.proto" = none ∧
    WithStandardImports stdW resFail1 "x.proto" = resFail1 "x.proto" :=
  ⟨rfl, by decide,
   with_standard_imports_passthrough stdW resFail1 "x.proto" (RErr.other 1) rfl (by decide)⟩

/-! ### Claim C5: the source resolver's import-path search -/

theorem sourceResolverGo_success (acc : String → AccessResult) (path : String) :
    ∀ (ips : List String) (e0 : Option RErr) (i : Nat), i < ips.length →
      (∀ j, j < i → ∃ m, acc (joinPath (ips.getD j "") path) = .err (RErr.notExist m)) →
      ∀ v, acc (joinPath (ips.getD i "") path) = .ok v →
      sourceResolverGo acc path ips e0 = ({ source := some v }, none) := by
  intro ips
  induction ips with
  | nil => intro e0 i hi; simp at hi
  | cons ip rest ih =>
    intro e0 i hi hprev v hok
    cases i with
    | zero =>
      simp only [List.getD_cons_zero] at hok
      unfold sourceResolverGo
      rw [hok]
    | succ k =>
      obtain ⟨m, hm⟩ := hprev 0 (by omega)
      simp only [List.getD_cons_zero] at hm
      unfold sourceResolverGo
      rw [hm]
      show sourceResolverGo acc path rest (some (RErr.notExist m)) = _
      exact ih (some (RErr.notExist m)) k (by simpa using hi)
        (fun j hj => by
          have := hprev (j + 1) (by omega)
          simpa using this)
        v (by simpa using hok)

theorem sourceResolverGo_hardfail (acc : String → AccessResult) (path : String) :
    ∀ (ips : List String) (e0 : Option RErr) (i : Nat), i < ips.length →
      (∀ j, j < i → ∃ m, acc (joinPath (ips.getD j "") path) = .err (RErr.notExist m)) →
      ∀ e, acc (joinPath (ips.getD i "") path) = .err e → e.isNotExist = false →
      sourceResolverGo acc path ips e0 = (default, some e) := by
  intro ips
  induction ips with
  | nil => intro e0 i hi; simp at hi
  | cons ip rest ih =>
    intro e0 i hi hprev e herr hfalse
    cases i with
    | zero =>
      simp only [List.getD_cons_zero] at herr
      unfold sourceResolverGo
      rw [herr]
      simp [hfalse]
    | succ k =>
      obtain ⟨m, hm⟩ := hprev 0 (by omega)
      simp only [List.getD_cons_zero] at hm
      unfold sourceResolverGo
      rw [hm]
      show sourceResolverGo acc path rest (some (RErr.notExist m)) = _
      exact ih (some (RErr.notExist m)) k (by simpa using hi)
        (fun j hj => by
          have := hprev (j + 1) (by omega)
          simpa using this)
        e (by simpa using herr) hfalse

theorem sourceResolverGo_allNotExist (acc : String → AccessResult) (path : String) :
    ∀ (ips : List String) (e0 : Option RErr), ips ≠ [] →
      (∀ j, j < ips.length →
        ∃ m, acc (joinPath (ips.getD j "") path) = .err (RErr.notExist m)) →
      ∀ e, acc (joinPath (ips.getD (ips.length - 1) "") path) = .err e →
      sourceResolverGo acc path ips e0 = (default, some e) := by
  intro ips
  induction ips with
  | nil => intro e0 hne; exact absurd rfl hne
  | cons ip rest ih =>
    intro e0 hne hall e hlast
    obtain ⟨m, hm⟩ := hall 0 (by simp)
    simp only [List.getD_cons_zero] at hm
    unfold sourceResolverGo
    rw [hm]
    show sourceResolverGo acc path rest (some (RErr.notExist m)) = (default, some e)
    by_cases hrest : rest = []
    · subst hrest
      simp only [List.length_cons, List.length_nil, Nat.zero_add, Nat.sub_self,
        List.getD_cons_zero] at hlast
      rw [hm] at hlast
      have he : RErr.notExist m = e := by
        injection hlast
      rw [← he]
      rfl
    · have hrlen : 0 < rest.length := List.length_pos.mpr hrest
      refine ih (some (RErr.notExist m)) hrest
        (fun j hj => by
          have := hall (j + 1) (by simp only [List.length_cons]; omega)
          simpa using this)
        e ?_
      have hidx : (ip :: rest).length - 1 = (rest.length - 1) + 1 := by
        simp only [List.length_cons]
        omega
      rw [hidx] at hlast
      simpa using hlast

/-- C5: with no import paths the accessor is consulted once on the literal
path. With import paths, each joined candidate is tried in order:
does-not-exist errors fall through to the next candidate, any other error
aborts immediately, the first success is returned as a Source-stage
result, and when every candidate does not exist the LAST such error is
returned. -/
theorem source_resolver_spec :
    (∀ (r : SourceResolver) (path : String), r.importPaths = [] →
      (∀ v, r.accessor path = .ok v →
        r.FindFileByPath path = ({ source := some v }, none)) ∧
      (∀ e, r.accessor path = .err e → r.FindFileByPath path = (default, some e))) ∧
    (∀ (r : SourceResolver) (path : String) (i : Nat), i < r.importPaths.length →
      (∀ j, j < i →
        ∃ m, r.accessor (joinPath (r.importPaths.getD j "") path) =
          .err (RErr.notExist m)) →
      (∀ v, r.accessor (joinPath (r.importPaths.getD i "") path) = .ok v →
        r.FindFileByPath path = ({ source := some v }, none)) ∧
      (∀ e, r.accessor (joinPath (r.importPaths.getD i "") path) = .err e →
        e.isNotExist = false → r.FindFileByPath path = (default, some e))) ∧
    (∀ (r : SourceResolver) (path : String), r.importPaths ≠ [] →
      (∀ j, j < r.importPaths.length →
        ∃ m, r.accessor (joinPath (r.importPaths.getD j "") path) =
          .err (RErr.notExist m)) →
      ∀ e, r.accessor
          (joinPath (r.importPaths.getD (r.importPaths.length - 1) "") path) = .err e →
        r.FindFileByPath path = (default, some e)) := by
  refine ⟨?_, ?_, ?_⟩
  · intro r path hempty
    constructor
    · intro v hok
      unfold SourceResolver.FindFileByPath
      rw [if_pos (by rw [hempty]; rfl), hok]
    · intro e herr
      unfold SourceResolver.FindFileByPath
      rw [if_pos (by rw [hempty]; rfl), herr]
  · intro r path i hi hprev
    have hlen : ¬ r.importPaths.length = 0 := by omega
    constructor
    · intro v hok
      unfold SourceResolver.FindFileByPath
      rw [if_neg hlen]
      exact sourceResolverGo_success r.accessor path r.importPaths none i hi hprev v hok
    · intro e herr hfalse
      unfold SourceResolver.FindFileByPath
      rw [if_neg hlen]
      exact sourceResolverGo_hardfail r.accessor path r.importPaths none i hi hprev e herr hfalse
  · intro r path hne hall e hlast
    have hlen : ¬ r.importPaths.length = 0 := by
      intro hc
      exact hne (List.length_eq_zero.mp hc)
    unfold SourceResolver.FindFileByPath
    rw [if_neg hlen]
    exact sourceResolverGo_allNotExist r.accessor path r.importPaths none hne hall e hlast


/-- C5 witness: requesting `x.proto` falls through `/a` and returns the
`/b/x.proto` contents. -/
theorem source_resolver_spec_witness :
    (1 < srW.importPaths.length ∧
     srW.accessor (joinPath (srW.importPaths.getD 0 "") "x.proto") =
       .err (RErr.notExist 0) ∧
     srW.accessor (joinPath (srW.importPaths.getD 1 "") "x.proto") = .ok 42) ∧
    srW.FindFileByPath "x.proto" = ({ source := some 42 }, none) :=
  ⟨⟨by decide, by decide, by decide⟩,
   (source_resolver_spec.2.1 srW "x.proto" 1 (by decide)
     (fun j hj => ⟨0, by
       have hj0 : j = 0 := by omega
       subst hj0
       decide⟩)).1 42 (by decide)⟩

/-! ### Claim C2: trailing-comment attribution

The count loops of `LeadingComments`/`TrailingComments` are
`takeWhile` over the index range `[start, len)`; these lemmas read off the
meaning of such a count. -/

theorem takeWhile_range'_le (p : Nat → Bool) :
    ∀ (n s : Nat), ((List.range' s n).takeWhile p).length ≤ n := by
  intro n
  induction n with
  | zero => intro s; simp
  | succ n ih =>
    intro s
    rw [List.range'_succ, List.takeWhile_cons]
    split
    · simp only [List.length_cons]
      have := ih (s + 1)
      omega
    · simp

theorem takeWhile_range'_true (p : Nat → Bool) :
    ∀ (n s i : Nat), s ≤ i → i < s + ((List.range' s n).takeWhile p).length →
      p i = true := by
  intro n
  induction n with
  | zero => intro s i h1 h2; simp at h2; omega
  | succ n ih =>
    intro s i h1 h2
    rw [List.range'_succ, List.takeWhile_cons] at h2
    by_cases hp : p s = true
    · rw [if_pos hp] at h2
      simp only [List.length_cons] at h2
      by_cases hi : i = s
      · subst hi; exact hp
      · exact ih (s + 1) i (by omega) (by omega)
    · rw [if_neg hp] at h2
      simp at h2
      omega

theorem takeWhile_range'_stop (p : Nat → Bool) :
    ∀ (n s : Nat), ((List.range' s n).takeWhile p).length < n →
      p (s + ((List.range' s n).takeWhile p).length) = false := by
  intro n
  induction n with
  | zero => intro s h; simp at h
  | succ n ih =>
    intro s h
    rw [List.range'_succ, List.takeWhile_cons] at h ⊢
    by_cases hp : p s = true
    · rw [if_pos hp] at h ⊢
      simp only [List.length_cons] at h ⊢
      have := ih (s + 1) (by omega)
      have harith : s + (((List.range' (s + 1) n).takeWhile p).length + 1) =
          s + 1 + ((List.range' (s + 1) n).takeWhile p).length := by omega
      rw [harith]
      exact this
    · rw [if_neg hp] at h ⊢
      simp only [List.length_nil, Nat.add_zero]
      cases hps : p s with
      | false => rfl
      | true => exact absurd hps hp

/-- Characterization of `TrailingComments`: the returned range holds
exactly the comments attributed to `t` whose token offset exceeds `t`'s. -/
theorem trailingComments_char (f : FileInfo) (hw : WF f) (t : Nat) :
    ∀ k, k < f.comments.length →
      (((f.TrailingComments t).1 ≤ k ∧
        k < (f.TrailingComments t).1 + (f.TrailingComments t).2) ↔
       ((f.com k).attributedToken = t ∧
        (f.tok t).offset < (f.tok (f.com k).index).offset)) := by
  set P : Nat → Bool := fun n =>
    decide (t ≤ (f.com n).attributedToken ∧
      (f.tok t).offset < (f.tok (f.com n).index).offset) with hP
  have hmono : ∀ a b, a ≤ b → b < f.comments.length → P a = true → P b = true := by
    intro a b hab hb ha
    simp only [hP, decide_eq_true_eq] at ha ⊢
    exact ⟨le_trans ha.1 (hw.com_attr_mono a b hab hb),
      lt_of_lt_of_le ha.2 (hw.com_tok_off_mono a b hab hb)⟩
  have hs := sortSearch_spec f.comments.length P hmono
  set start := sortSearch f.comments.length P with hstart
  set num := ((List.range' start (f.comments.length - start)).takeWhile (fun i =>
    (f.com i).attributedToken == t)).length with hnum
  have hdef : f.TrailingComments t =
      if start = f.comments.length ∨ (f.com start).attributedToken ≠ t then (0, 0)
      else (start, num) := rfl
  by_cases hcase : start = f.comments.length ∨ (f.com start).attributedToken ≠ t
  · rw [hdef, if_pos hcase]
    intro k hk
    constructor
    · intro hkr
      exact absurd hkr.2 (by omega)
    · intro hS
      exfalso
      have hPk : P k = true := by
        simp only [hP, decide_eq_true_eq]
        exact ⟨le_of_eq hS.1.symm, hS.2⟩
      have hstart_le : start ≤ k := by
        by_contra hc
        push_neg at hc
        have := hs.2.1 k hc
        rw [hPk] at this
        exact Bool.noConfusion this
      have hstart_lt : start < f.comments.length := by omega
      have hPs := hs.2.2 hstart_lt
      simp only [hP, decide_eq_true_eq] at hPs
      rcases hcase with hc1 | hc2
      · omega
      · have hmon := hw.com_attr_mono start k hstart_le hk
        have hattr := hS.1
        exact hc2 (by omega)
  · have hnot := hcase
    push_neg at hnot
    obtain ⟨hslen, hattr_start⟩ := hnot
    have hstart_lt : start < f.comments.length := by
      have := hs.1
      omega
    have hPs := hs.2.2 hstart_lt
    simp only [hP, decide_eq_true_eq] at hPs
    rw [hdef, if_neg hcase]
    intro k hk
    constructor
    · rintro ⟨hk1, hk2⟩
      have hQ := takeWhile_range'_true (fun i => (f.com i).attributedToken == t)
        (f.comments.length - start) start k hk1 (by rw [hnum] at hk2; exact hk2)
      have hattr_k : (f.com k).attributedToken = t := by
        simpa using hQ
      refine ⟨hattr_k, ?_⟩
      calc (f.tok t).offset < (f.tok (f.com start).index).offset := hPs.2
        _ ≤ (f.tok (f.com k).index).offset := hw.com_tok_off_mono start k hk1 hk
    · rintro ⟨hattr_k, hoff_k⟩
      have hPk : P k = true := by
        simp only [hP, decide_eq_true_eq]
        exact ⟨le_of_eq hattr_k.symm, hoff_k⟩
      have hk1 : start ≤ k := by
        by_contra hc
        push_neg at hc
        have := hs.2.1 k hc
        rw [hPk] at this
        exact Bool.noConfusion this
      refine ⟨hk1, ?_⟩
      by_contra hc
      push_neg at hc
      have hnum_lt : num < f.comments.length - start := by omega
      have hstop := takeWhile_range'_stop (fun i => (f.com i).attributedToken == t)
        (f.comments.length - start) start (by rw [← hnum]; exact hnum_lt)
      rw [← hnum] at hstop
      have h1 : (f.com (start + num)).attributedToken ≤ t := by
        have := hw.com_attr_mono (start + num) k (by omega) hk
        omega
      have h2 : t ≤ (f.com (start + num)).attributedToken := by
        have := hw.com_attr_mono start (start + num) (by omega) (by omega)
        omega
      have hstop' : ((f.com (start + num)).attributedToken == t) = false := hstop
      have heqt : ((f.com (start + num)).attributedToken == t) = true := by
        simp only [beq_iff_eq]
        omega
      rw [heqt] at hstop'
      exact Bool.noConfusion hstop'

/-- C2: `TrailingComments t` returns exactly the comments attributed to
`t` whose own token offset is strictly greater than `t`'s offset — each
such comment is in the returned range, and no other comment is. -/
theorem trailing_comments_spec (f : FileInfo) (hf : Built f) (t : Nat)
    (ht : t < f.tokens.length) :
    ∀ k, k < f.comments.length →
      (((f.TrailingComments t).1 ≤ k ∧
        k < (f.TrailingComments t).1 + (f.TrailingComments t).2) ↔
       ((f.com k).attributedToken = t ∧
        (f.tok t).offset < (f.tok (f.com k).index).offset)) :=
  trailingComments_char f (built_wf f hf) t

/-- C2 witness: in `fW4` the comment token 1 (offset 4) is attributed to
token 0 (offset 0), hence trailing; the returned range is exactly it. -/
theorem trailing_comments_spec_witness :
    (Built fW4 ∧ 0 < fW4.tokens.length) ∧
    (∀ k, k < fW4.comments.length →
      (((fW4.TrailingComments 0).1 ≤ k ∧
        k < (fW4.TrailingComments 0).1 + (fW4.TrailingComments 0).2) ↔
       ((fW4.com k).attributedToken = 0 ∧
        (fW4.tok 0).offset < (fW4.tok (fW4.com k).index).offset))) :=
  ⟨⟨built_fW4, by decide⟩, trailing_comments_spec fW4 built_fW4 0 (by decide)⟩

/-- Characterization of `LeadingComments`: the returned range holds
exactly the comments attributed to `t` whose token offset is below `t`'s. -/
theorem leadingComments_char (f : FileInfo) (hw : WF f) (t : Nat) :
    ∀ k, k < f.comments.length →
      (((f.LeadingComments t).1 ≤ k ∧
        k < (f.LeadingComments t).1 + (f.LeadingComments t).2) ↔
       ((f.com k).attributedToken = t ∧
        (f.tok (f.com k).index).offset < (f.tok t).offset)) := by
  set P : Nat → Bool := fun n => decide (t ≤ (f.com n).attributedToken) with hP
  have hmono : ∀ a b, a ≤ b → b < f.comments.length → P a = true → P b = true := by
    intro a b hab hb ha
    simp only [hP, decide_eq_true_eq] at ha ⊢
    exact le_trans ha (hw.com_attr_mono a b hab hb)
  have hs := sortSearch_spec f.comments.length P hmono
  set start := sortSearch f.comments.length P with hstart
  set num := ((List.range' start (f.comments.length - start)).takeWhile (fun i =>
    decide ((f.com i).attributedToken = t ∧
      (f.tok (f.com i).index).offset < (f.tok t).offset))).length with hnum
  have hdef : f.LeadingComments t =
      if start = f.comments.length ∨ (f.com start).attributedToken ≠ t then (0, 0)
      else (start, num) := rfl
  by_cases hcase : start = f.comments.length ∨ (f.com start).attributedToken ≠ t
  · rw [hdef, if_pos hcase]
    intro k hk
    constructor
    · intro hkr
      exact absurd hkr.2 (by omega)
    · intro hS
      exfalso
      have hPk : P k = true := by
        simp only [hP, decide_eq_true_eq]
        exact le_of_eq hS.1.symm
      have hstart_le : start ≤ k := by
        by_contra hc
        push_neg at hc
        have := hs.2.1 k hc
        rw [hPk] at this
        exact Bool.noConfusion this
      have hstart_lt : start < f.comments.length := by omega
      have hPs := hs.2.2 hstart_lt
      simp only [hP, decide_eq_true_eq] at hPs
      rcases hcase with hc1 | hc2
      · omega
      · have hmon := hw.com_attr_mono start k hstart_le hk
        have hattr := hS.1
        exact hc2 (by omega)
  · have hnot := hcase
    push_neg at hnot
    obtain ⟨hslen, hattr_start⟩ := hnot
    have hstart_lt : start < f.comments.length := by
      have := hs.1
      omega
    rw [hdef, if_neg hcase]
    intro k hk
    constructor
    · rintro ⟨hk1, hk2⟩
      have hQ := takeWhile_range'_true (fun i =>
        decide ((f.com i).attributedToken = t ∧
          (f.tok (f.com i).index).offset < (f.tok t).offset))
        (f.comments.length - start) start k hk1 (by rw [hnum] at hk2; exact hk2)
      have hQ' : ((f.com k).attributedToken = t ∧
          (f.tok (f.com k).index).offset < (f.tok t).offset) := by
        have : decide ((f.com k).attributedToken = t ∧
            (f.tok (f.com k).index).offset < (f.tok t).offset) = true := hQ
        exact of_decide_eq_true this
      exact hQ'
    · rintro ⟨hattr_k, hoff_k⟩
      have hPk : P k = true := by
        simp only [hP, decide_eq_true_eq]
        exact le_of_eq hattr_k.symm
      have hk1 : start ≤ k := by
        by_contra hc
        push_neg at hc
        have := hs.2.1 k hc
        rw [hPk] at this
        exact Bool.noConfusion this
      refine ⟨hk1, ?_⟩
      by_contra hc
      push_neg at hc
      have hnum_lt : num < f.comments.length - start := by omega
      have hstop := takeWhile_range'_stop (fun i =>
        decide ((f.com i).attributedToken = t ∧
          (f.tok (f.com i).index).offset < (f.tok t).offset))
        (f.comments.length - start) start (by rw [← hnum]; exact hnum_lt)
      rw [← hnum] at hstop
      have hstop' : decide ((f.com (start + num)).attributedToken = t ∧
          (f.tok (f.com (start + num)).index).offset < (f.tok t).offset) = false := hstop
      have hnotQ := of_decide_eq_false hstop'
      have h1 : (f.com (start + num)).attributedToken ≤ t := by
        have := hw.com_attr_mono (start + num) k (by omega) hk
        omega
      have h2 : t ≤ (f.com (start + num)).attributedToken := by
        have := hw.com_attr_mono start (start + num) (by omega) (by omega)
        omega
      have hoff_mid : (f.tok (f.com (start + num)).index).offset ≤
          (f.tok (f.com k).index).offset :=
        hw.com_tok_off_mono (start + num) k (by omega) hk
      exact hnotQ ⟨by omega, by omega⟩

/-- `sortSearchGo` stays inside `[i, j]` regardless of the predicate. -/
theorem sortSearchGo_bounds (f : Nat → Bool) :
    ∀ fuel i j, i ≤ j → i ≤ sortSearchGo f fuel i j ∧ sortSearchGo f fuel i j ≤ j := by
  intro fuel
  induction fuel with
  | zero => intro i j hij; exact ⟨le_refl i, hij⟩
  | succ fuel ih =>
    intro i j hij
    by_cases h : i < j
    · have hmlt : (i + j) / 2 < j := by omega
      have hmge : i ≤ (i + j) / 2 := by omega
      cases hfm : f ((i + j) / 2) with
      | true =>
        have hres : sortSearchGo f (fuel + 1) i j = sortSearchGo f fuel i ((i + j) / 2) := by
          simp [sortSearchGo, h, hfm]
        rw [hres]
        have := ih i ((i + j) / 2) hmge
        exact ⟨this.1, le_trans this.2 (le_of_lt hmlt)⟩
      | false =>
        have hres : sortSearchGo f (fuel + 1) i j = sortSearchGo f fuel ((i + j) / 2 + 1) j := by
          simp [sortSearchGo, h, hfm]
        rw [hres]
        have := ih ((i + j) / 2 + 1) j (by omega)
        exact ⟨by omega, this.2⟩
    · have : i = j := by omega
      subst this
      have hres : sortSearchGo f (fuel + 1) i i = i := by simp [sortSearchGo]
      rw [hres]
      exact ⟨le_refl i, le_refl i⟩

/-- The `LeadingComments` range stays inside the comments sequence. -/
theorem leadingComments_le (f : FileInfo) (t : Nat) :
    (f.LeadingComments t).1 + (f.LeadingComments t).2 ≤ f.comments.length := by
  set start := sortSearch f.comments.length
    (fun n => decide (t ≤ (f.com n).attributedToken)) with hstart
  set num := ((List.range' start (f.comments.length - start)).takeWhile (fun i =>
    decide ((f.com i).attributedToken = t ∧
      (f.tok (f.com i).index).offset < (f.tok t).offset))).length with hnum
  have hdef : f.LeadingComments t =
      if start = f.comments.length ∨ (f.com start).attributedToken ≠ t then (0, 0)
      else (start, num) := rfl
  have hb := sortSearchGo_bounds (fun n => decide (t ≤ (f.com n).attributedToken))
    f.comments.length 0 f.comments.length (by omega)
  have hnle : num ≤ f.comments.length - start := by
    rw [hnum]
    exact takeWhile_range'_le _ _ _
  rw [hdef]
  split
  · simp
  · have hslen : start ≤ f.comments.length := hb.2
    simp only
    omega

/-- The `TrailingComments` range stays inside the comments sequence. -/
theorem trailingComments_le (f : FileInfo) (t : Nat) :
    (f.TrailingComments t).1 + (f.TrailingComments t).2 ≤ f.comments.length := by
  set start := sortSearch f.comments.length (fun n =>
    decide (t ≤ (f.com n).attributedToken ∧
      (f.tok t).offset < (f.tok (f.com n).index).offset)) with hstart
  set num := ((List.range' start (f.comments.length - start)).takeWhile (fun i =>
    (f.com i).attributedToken == t)).length with hnum
  have hdef : f.TrailingComments t =
      if start = f.comments.length ∨ (f.com start).attributedToken ≠ t then (0, 0)
      else (start, num) := rfl
  have hb := sortSearchGo_bounds (fun n =>
    decide (t ≤ (f.com n).attributedToken ∧
      (f.tok t).offset < (f.tok (f.com n).index).offset))
    f.comments.length 0 f.comments.length (by omega)
  have hnle : num ≤ f.comments.length - start := by
    rw [hnum]
    exact takeWhile_range'_le _ _ _
  rw [hdef]
  split
  · simp
  · have hslen : start ≤ f.comments.length := hb.2
    simp only
    omega

/-- Two adjacent slices concatenate to one slice. -/
theorem slice_concat {α : Type} (l : List α) (a b c : Nat) (hab : a ≤ b) (hbc : b ≤ c) :
    (l.drop a).take (b - a) ++ (l.drop b).take (c - b) = (l.drop a).take (c - a) := by
  have hsplit : c - a = (b - a) + (c - b) := by omega
  rw [hsplit, List.take_add, List.drop_drop]
  have : a + (b - a) = b := by omega
  rw [this]

/-- Inversion of a nonempty filtered index range: the head is the first
index satisfying the predicate, and the tail restarts just after it. -/
theorem filter_range'_cons_inv (q : Nat → Bool) :
    ∀ (m p t : Nat) (rest : List Nat), (List.range' p m).filter q = t :: rest →
      p ≤ t ∧ t < p + m ∧ q t = true ∧ (∀ k, p ≤ k → k < t → q k = false) ∧
      rest = (List.range' (t + 1) (p + m - (t + 1))).filter q := by
  intro m
  induction m with
  | zero => intro p t rest h; simp at h
  | succ m ih =>
    intro p t rest h
    rw [List.range'_succ, List.filter_cons] at h
    by_cases hq : q p = true
    · rw [if_pos hq] at h
      have ht : t = p := (List.cons.injEq _ _ _ _ ▸ h).1.symm
      subst ht
      refine ⟨le_refl t, by omega, hq, fun k h1 h2 => by omega, ?_⟩
      have hrest : rest = (List.range' (t + 1) m).filter q := (List.cons.injEq _ _ _ _ ▸ h).2.symm
      rw [hrest]
      have : t + (m + 1) - (t + 1) = m := by omega
      rw [this]
    · rw [if_neg hq] at h
      have := ih (p + 1) t rest h
      refine ⟨by omega, by omega, this.2.2.1, ?_, ?_⟩
      · intro k h1 h2
        by_cases hk : k = p
        · subst hk
          cases hqp : q k with
          | false => rfl
          | true => exact absurd hqp hq
        · exact this.2.2.2.1 k (by omega) h2
      · have harith : p + 1 + m - (t + 1) = p + (m + 1) - (t + 1) := by omega
        rw [← harith]
        exact this.2.2.2.2

/-- An empty filtered index range means no index satisfies the predicate. -/
theorem filter_range'_nil (q : Nat → Bool) :
    ∀ (m p : Nat), (List.range' p m).filter q = [] →
      ∀ k, p ≤ k → k < p + m → q k = false := by
  intro m
  induction m with
  | zero => intro p h k h1 h2; omega
  | succ m ih =>
    intro p h k h1 h2
    rw [List.range'_succ, List.filter_cons] at h
    by_cases hq : q p = true
    · rw [if_pos hq] at h
      exact absurd h (by simp)
    · rw [if_neg hq] at h
      by_cases hk : k = p
      · subst hk
        cases hqp : q k with
        | false => rfl
        | true => exact absurd hqp hq
      · exact ih (p + 1) h k (by omega) (by omega)

/-- Dropping a prefix of indices that all fail the predicate does not
change the filtered range. -/
theorem filter_range'_drop (q : Nat → Bool) :
    ∀ (c a m : Nat), c ≤ m → (∀ k, a ≤ k → k < a + c → q k = false) →
      (List.range' a m).filter q = (List.range' (a + c) (m - c)).filter q := by
  intro c
  induction c with
  | zero => intro a m h1 h2; simp
  | succ c ih =>
    intro a m h1 h2
    cases m with
    | zero => omega
    | succ m =>
      rw [List.range'_succ, List.filter_cons, if_neg (by rw [h2 a (le_refl a) (by omega)]; simp)]
      have := ih (a + 1) m (by omega) (fun k hk1 hk2 => h2 k (by omega) (by omega))
      rw [this]
      have h3 : a + 1 + c = a + (c + 1) := by omega
      have h4 : m - c = m + 1 - (c + 1) := by omega
      rw [h3, h4]

/-- A strictly increasing map into a window it fills is the shift by the
window start. -/
theorem strictMono_window (g : Nat → Nat) (cnt p w : Nat)
    (hmono : ∀ i j, i < j → j < cnt → g i < g j)
    (hrange : ∀ i, i < cnt → p ≤ g i ∧ g i < p + w)
    (hsurj : ∀ k, p ≤ k → k < p + w → ∃ i, i < cnt ∧ g i = k) :
    cnt = w ∧ ∀ i, i < cnt → g i = p + i := by
  have hlow : ∀ i, i < cnt → p + i ≤ g i := by
    intro i
    induction i with
    | zero => intro hi; simpa using (hrange 0 hi).1
    | succ i ih =>
      intro hi
      have h1 := ih (by omega)
      have h2 := hmono i (i + 1) (by omega) hi
      omega
  have hcw : cnt ≤ w := by
    by_cases hc : cnt = 0
    · subst hc; omega
    · have h1 := hlow (cnt - 1) (by omega)
      have h2 := (hrange (cnt - 1) (by omega)).2
      omega
  have hsh : ∀ j, j < w → j < cnt ∧ g j = p + j := by
    intro j
    induction j using Nat.strong_induction_on with
    | _ j ihs =>
      intro hj
      obtain ⟨i, hi, hgi⟩ := hsurj (p + j) (by omega) (by omega)
      have hij : i ≤ j := by
        have := hlow i hi
        omega
      by_cases hlt : i < j
      · have := (ihs i hlt (by omega)).2
        omega
      · have : i = j := by omega
        subst this
        exact ⟨hi, hgi⟩
  have hwc : w ≤ cnt := by
    by_cases hw : w = 0
    · omega
    · have := (hsh (w - 1) (by omega)).1
      omega
  refine ⟨by omega, fun i hi => (hsh i (by omega)).2⟩

/-- A pointwise shift makes a mapped index range another index range. -/
theorem map_range'_shift (g : Nat → Nat) :
    ∀ (cnt a p : Nat), (∀ i, i < cnt → g (a + i) = p + i) →
      (List.range' a cnt).map g = List.range' p cnt := by
  intro cnt
  induction cnt with
  | zero => intro a p h; rfl
  | succ cnt ih =>
    intro a p h
    rw [List.range'_succ, List.range'_succ, List.map_cons]
    have h0 : g a = p := by
      have := h 0 (by omega)
      simpa using this
    rw [h0]
    have := ih (a + 1) (p + 1) (fun i hi => by
      have := h (i + 1) (by omega)
      have harith : a + 1 + i = a + (i + 1) := by omega
      rw [harith]
      omega)
    rw [this]

/-- Comment tokens are exactly the images of comment slots. -/
theorem isCommentTok_slot (f : FileInfo) (k : Nat) :
    isCommentTok f k ↔ ∃ m, m < f.comments.length ∧ (f.com m).index = k := by
  unfold isCommentTok
  rw [List.mem_map]
  constructor
  · rintro ⟨c, hc, hck⟩
    rw [List.mem_iff_getElem] at hc
    obtain ⟨m, hm, hcm⟩ := hc
    refine ⟨m, hm, ?_⟩
    show (f.comments.getD m default).index = k
    rw [List.getD_eq_getElem f.comments default hm, hcm, hck]
  · rintro ⟨m, hm, hmk⟩
    refine ⟨f.com m, ?_, hmk⟩
    exact getD_mem f.comments m hm default

/-- Strictly earlier tokens have strictly smaller offsets, provided the
earlier token is nonempty. -/
theorem off_strict {f : FileInfo} (hw : WF f) (k t : Nat) (hk : k < t)
    (ht : t < f.tokens.length) (hpos : 0 < (f.tok k).length) :
    (f.tok k).offset < (f.tok t).offset := by
  have := hw.tok_end_le k t hk ht
  omega

/-- Slot order matches comment-token order. -/
theorem com_slot_lt_iff {f : FileInfo} (hw : WF f) (a b : Nat)
    (ha : a < f.comments.length) (hb : b < f.comments.length) :
    a < b ↔ (f.com a).index < (f.com b).index := by
  constructor
  · intro h
    exact hw.com_index_strict a b h hb
  · intro h
    by_contra hc
    push_neg at hc
    by_cases heq : a = b
    · subst heq; omega
    · have := hw.com_index_strict b a (by omega) ha
      omega

/-- The leading comments of a terminal `t`, when all tokens of `[p, t)`
are comments not yet attributed backwards, are exactly the tokens
`p, …, t-1` in order. -/
theorem leading_window (f : FileInfo) (hw : WF f) {terminals : List Nat}
    (vp : ValidParse f terminals) (p t : Nat)
    (hpt : p ≤ t) (htn : t < f.tokens.length)
    (hterm : ¬ isCommentTok f t)
    (hgap : ∀ k, p ≤ k → k < t → isCommentTok f k)
    (hinv : ∀ m, m < f.comments.length →
      ((f.com m).index < p ↔ (f.com m).attributedToken < p)) :
    (f.LeadingComments t).2 = t - p ∧
    (List.range' (f.LeadingComments t).1 (f.LeadingComments t).2).map
      (fun i => (f.com i).index) = List.range' p (t - p) ∧
    (∀ m, m < f.comments.length → p ≤ (f.com m).index → (f.com m).index < t →
      (f.com m).attributedToken = t) := by
  have hchar := leadingComments_char f hw t
  have hle := leadingComments_le f t
  have hattr_gap : ∀ m, m < f.comments.length → p ≤ (f.com m).index →
      (f.com m).index < t → (f.com m).attributedToken = t := by
    intro m hm h1 h2
    have hattrp : ¬ (f.com m).attributedToken < p := by
      intro hc
      have := (hinv m hm).mpr hc
      omega
    have hterm_attr := vp.attr_terminal m hm
    have hne := vp.attr_ne m hm
    by_cases hlt : (f.com m).attributedToken < (f.com m).index
    · exact absurd (hgap _ (by omega) (by omega)) hterm_attr
    · have hgt : (f.com m).index < (f.com m).attributedToken := by omega
      by_cases hat : (f.com m).attributedToken ≤ t
      · by_cases haeq : (f.com m).attributedToken = t
        · exact haeq
        · exact absurd (hgap _ (by omega) (by omega)) hterm_attr
      · have := vp.attr_adjacent m hm t (Or.inl ⟨by omega, by omega⟩)
        exact absurd this hterm
  have hwin := strictMono_window (fun i => (f.com ((f.LeadingComments t).1 + i)).index)
    (f.LeadingComments t).2 p (t - p)
    (by
      intro i j hij hj
      exact hw.com_index_strict _ _ (by omega) (by omega))
    (by
      intro i hi
      have hm : (f.LeadingComments t).1 + i < f.comments.length := by omega
      have hS := (hchar _ hm).mp ⟨by omega, by omega⟩
      have hidx_lt : (f.com ((f.LeadingComments t).1 + i)).index < t := by
        by_contra hc
        push_neg at hc
        by_cases heq : (f.com ((f.LeadingComments t).1 + i)).index = t
        · exact hterm ((isCommentTok_slot f t).mpr ⟨_, hm, heq⟩)
        · have hlt : t < (f.com ((f.LeadingComments t).1 + i)).index := by omega
          have hoff := hw.tok_off_mono t _ (le_of_lt hlt)
            (hw.com_tok _ (getD_mem f.comments _ hm default)).1
          have := hS.2
          omega
      have hidx_ge : p ≤ (f.com ((f.LeadingComments t).1 + i)).index := by
        by_contra hc
        push_neg at hc
        have := (hinv _ hm).mp hc
        omega
      refine ⟨hidx_ge, ?_⟩
      show (f.com ((f.LeadingComments t).1 + i)).index < p + (t - p)
      omega)
    (by
      intro k hk1 hk2
      have hk2' : k < t := by omega
      obtain ⟨m, hm, hmk⟩ := (isCommentTok_slot f k).mp (hgap k hk1 hk2')
      have hattr := hattr_gap m hm (by omega) (by omega)
      have hoff : (f.tok (f.com m).index).offset < (f.tok t).offset := by
        rw [hmk]
        exact off_strict hw k t hk2' htn (vp.tok_pos k (by omega))
      have hrange := (hchar m hm).mpr ⟨hattr, hoff⟩
      refine ⟨m - (f.LeadingComments t).1, by omega, ?_⟩
      show (f.com ((f.LeadingComments t).1 + (m - (f.LeadingComments t).1))).index = k
      have harith : (f.LeadingComments t).1 + (m - (f.LeadingComments t).1) = m := by omega
      rw [harith, hmk])
  refine ⟨hwin.1, ?_, hattr_gap⟩
  rw [← hwin.1]
  exact map_range'_shift _ _ _ _ hwin.2

/-- The trailing comments of a terminal `t` are exactly the tokens
`t+1, …, t+cnt` in order, where `cnt` is the returned count; tokens in
that window are attributed to `t` and comments attributed to `t` from
above lie inside the window. -/
theorem trailing_window (f : FileInfo) (hw : WF f) {terminals : List Nat}
    (vp : ValidParse f terminals) (t : Nat) (htn : t < f.tokens.length)
    (hterm : ¬ isCommentTok f t) :
    (List.range' (f.TrailingComments t).1 (f.TrailingComments t).2).map
      (fun i => (f.com i).index) = List.range' (t + 1) (f.TrailingComments t).2 ∧
    (∀ m, m < f.comments.length → t < (f.com m).index →
      (f.com m).index ≤ t + (f.TrailingComments t).2 → (f.com m).attributedToken = t) ∧
    (∀ m, m < f.comments.length → (f.com m).attributedToken = t →
      t < (f.com m).index → (f.com m).index ≤ t + (f.TrailingComments t).2) ∧
    (∀ i, i < (f.TrailingComments t).2 →
      (f.com ((f.TrailingComments t).1 + i)).index = t + 1 + i) := by
  have hchar := trailingComments_char f hw t
  have hle := trailingComments_le f t
  have hidx_gt : ∀ i, i < (f.TrailingComments t).2 →
      t < (f.com ((f.TrailingComments t).1 + i)).index := by
    intro i hi
    have hm : (f.TrailingComments t).1 + i < f.comments.length := by omega
    have hS := (hchar _ hm).mp ⟨by omega, by omega⟩
    by_contra hc
    push_neg at hc
    have hoff := hw.tok_off_mono _ t hc htn
    have := hS.2
    omega
  by_cases hcnt : (f.TrailingComments t).2 = 0
  · rw [hcnt]
    refine ⟨by simp, ?_, ?_, fun i hi => by omega⟩
    · intro m hm h1 h2
      omega
    · intro m hm hattr hgt
      exfalso
      have hidx_n : (f.com m).index < f.tokens.length :=
        (hw.com_tok _ (getD_mem f.comments m hm default)).1
      have hoff : (f.tok t).offset < (f.tok (f.com m).index).offset :=
        off_strict hw t _ hgt hidx_n (vp.tok_pos t (by omega))
      have := (hchar m hm).mpr ⟨hattr, hoff⟩
      omega
  · have hcnt_pos : 0 < (f.TrailingComments t).2 := by omega
    set b := (f.TrailingComments t).1 with hb
    set cnt := (f.TrailingComments t).2 with hcnt'
    have hmlast : b + (cnt - 1) < f.comments.length := by omega
    have hSlast := (hchar _ hmlast).mp ⟨by omega, by omega⟩
    have hglast_gt : t < (f.com (b + (cnt - 1))).index := hidx_gt (cnt - 1) (by omega)
    have htpos : 0 < (f.tok t).length := by
      have hin : (f.com (b + (cnt - 1))).index < f.tokens.length :=
        (hw.com_tok _ (getD_mem f.comments _ hmlast default)).1
      exact vp.tok_pos t (by omega)
    have hwin := strictMono_window (fun i => (f.com (b + i)).index) cnt (t + 1)
      ((f.com (b + (cnt - 1))).index - t)
      (by
        intro i j hij hj
        exact hw.com_index_strict _ _ (by omega) (by omega))
      (by
        intro i hi
        refine ⟨hidx_gt i hi, ?_⟩
        show (f.com (b + i)).index < t + 1 + ((f.com (b + (cnt - 1))).index - t)
        by_cases hilast : i = cnt - 1
        · subst hilast
          omega
        · have := hw.com_index_strict (b + i) (b + (cnt - 1)) (by omega) hmlast
          omega)
      (by
        intro k hk1 hk2
        by_cases hklast : k = (f.com (b + (cnt - 1))).index
        · refine ⟨cnt - 1, by omega, ?_⟩
          show (f.com (b + (cnt - 1))).index = k
          omega
        · have hklt : k < (f.com (b + (cnt - 1))).index := by omega
          have hkcom : isCommentTok f k :=
            vp.attr_adjacent (b + (cnt - 1)) hmlast k (Or.inr ⟨by omega, by omega⟩)
          obtain ⟨m, hm, hmk⟩ := (isCommentTok_slot f k).mp hkcom
          have hmlt : m < b + (cnt - 1) :=
            (com_slot_lt_iff hw m (b + (cnt - 1)) hm hmlast).mpr (by omega)
          have hattr_le : (f.com m).attributedToken ≤ t := by
            have := hw.com_attr_mono m (b + (cnt - 1)) (le_of_lt hmlt) hmlast
            omega
          have hattr_eq : (f.com m).attributedToken = t := by
            by_contra hne
            have hlt : (f.com m).attributedToken < t := by omega
            have := vp.attr_adjacent m hm t (Or.inr ⟨hlt, by omega⟩)
            exact absurd this hterm
          have hkn : k < f.tokens.length := by
            have := (hw.com_tok (f.com m) (getD_mem f.comments m hm default)).1
            omega
          have hoff : (f.tok t).offset < (f.tok (f.com m).index).offset := by
            rw [hmk]
            exact off_strict hw t k (by omega) hkn htpos
          have hrange := (hchar m hm).mpr ⟨hattr_eq, hoff⟩
          refine ⟨m - b, by omega, ?_⟩
          have harith : b + (m - b) = m := by omega
          show (f.com (b + (m - b))).index = k
          rw [harith, hmk])
    have hshift := hwin.2
    refine ⟨?_, ?_, ?_, fun i hi => hshift i hi⟩
    · exact map_range'_shift _ _ _ _ hshift
    · intro m hm h1 h2
      have hmle : m ≤ b + (cnt - 1) := by
        by_contra hc
        push_neg at hc
        have := (com_slot_lt_iff hw (b + (cnt - 1)) m hmlast hm).mp hc
        omega
      have hattr_le : (f.com m).attributedToken ≤ t := by
        have := hw.com_attr_mono m (b + (cnt - 1)) hmle hmlast
        omega
      by_contra hne
      have hlt : (f.com m).attributedToken < t := by omega
      have := vp.attr_adjacent m hm t (Or.inr ⟨hlt, by omega⟩)
      exact absurd this hterm
    · intro m hm hattr hgt
      have hidx_n : (f.com m).index < f.tokens.length :=
        (hw.com_tok _ (getD_mem f.comments m hm default)).1
      have hoff : (f.tok t).offset < (f.tok (f.com m).index).offset :=
        off_strict hw t _ hgt hidx_n htpos
      have hrange := (hchar m hm).mpr ⟨hattr, hoff⟩
      have hshiftm : (f.com (b + (m - b))).index = t + 1 + (m - b) := hshift (m - b) (by omega)
      have harith : b + (m - b) = m := by omega
      rw [harith] at hshiftm
      omega

theorem range'_add_append (a m k : Nat) :
    List.range' a (m + k) = List.range' a m ++ List.range' (a + m) k := by
  have h1 := List.range'_append a m k 1
  simp only [Nat.one_mul] at h1
  have h2 : m + k = k + m := Nat.add_comm m k
  rw [h2]
  exact h1.symm

/-- The print of the remaining terminals, from a position `p` such that
every comment is attributed across `p` consistently, covers exactly the
token segments from `p` on. -/
theorem printTerminals_segments (f : FileInfo) (hw : WF f) {terminals : List Nat}
    (vp : ValidParse f terminals) :
    ∀ (ts : List Nat) (p : Nat), p ≤ f.tokens.length →
      ts = (List.range' p (f.tokens.length - p)).filter
        (fun k => !(decide (isCommentTok f k))) →
      (∀ m, m < f.comments.length →
        ((f.com m).index < p ↔ (f.com m).attributedToken < p)) →
      printTerminals f ts = ((List.range' p (f.tokens.length - p)).map f.seg).flatten := by
  intro ts
  induction ts with
  | nil =>
    intro p hpn hfil hinv
    have hpn' : p = f.tokens.length := by
      by_contra hc
      have hplt : p < f.tokens.length := by omega
      have hq := filter_range'_nil _ _ _ hfil.symm (f.tokens.length - 1) (by omega) (by omega)
      have : isCommentTok f (f.tokens.length - 1) := by
        by_contra hcom
        rw [decide_eq_false hcom] at hq
        simp at hq
      exact vp.last_terminal this
    rw [hpn']
    simp [printTerminals]
  | cons t ts' ih =>
    intro p hpn hfil hinv
    obtain ⟨hpt, htlt, hqt, hqlo, hrest⟩ := filter_range'_cons_inv _ _ _ _ _ hfil.symm
    have htn : t < f.tokens.length := by omega
    have hterm : ¬ isCommentTok f t := by
      intro hcom
      rw [decide_eq_true hcom] at hqt
      simp at hqt
    have hgap : ∀ k, p ≤ k → k < t → isCommentTok f k := by
      intro k h1 h2
      have hq := hqlo k h1 h2
      by_contra hcom
      rw [decide_eq_false hcom] at hq
      simp at hq
    have hlead := leading_window f hw vp p t hpt htn hterm hgap hinv
    have htrail := trailing_window f hw vp t htn hterm
    have htrail_le := trailingComments_le f t
    -- the window after t's trailing comments
    have hp'n : t + 1 + (f.TrailingComments t).2 ≤ f.tokens.length := by
      by_cases hc : (f.TrailingComments t).2 = 0
      · omega
      · have hsh := htrail.2.2.2 ((f.TrailingComments t).2 - 1) (by omega)
        have hmlt : (f.TrailingComments t).1 + ((f.TrailingComments t).2 - 1) <
            f.comments.length := by omega
        have := (hw.com_tok (f.com ((f.TrailingComments t).1 + ((f.TrailingComments t).2 - 1)))
          (getD_mem f.comments _ hmlt default)).1
        omega
    -- comments fill (t, t + 1 + cntT)
    have hfillT : ∀ k, t + 1 ≤ k → k < t + 1 + (f.TrailingComments t).2 → isCommentTok f k := by
      intro k h1 h2
      have hsh := htrail.2.2.2 (k - (t + 1)) (by omega)
      have hmlt : (f.TrailingComments t).1 + (k - (t + 1)) < f.comments.length := by omega
      exact (isCommentTok_slot f k).mpr ⟨_, hmlt, by omega⟩
    -- the remaining terminals restart at the new window
    have hts' : ts' = (List.range' (t + 1 + (f.TrailingComments t).2)
        (f.tokens.length - (t + 1 + (f.TrailingComments t).2))).filter
        (fun k => !(decide (isCommentTok f k))) := by
      rw [hrest]
      have harith : p + (f.tokens.length - p) - (t + 1) = f.tokens.length - (t + 1) := by omega
      rw [harith]
      have hdrop := filter_range'_drop (fun k => !(decide (isCommentTok f k)))
        (f.TrailingComments t).2 (t + 1) (f.tokens.length - (t + 1)) (by omega)
        (by
          intro k h1 h2
          show (!decide (isCommentTok f k)) = false
          rw [decide_eq_true (hfillT k h1 (by omega))]
          simp)
      rw [hdrop]
      have h1 : t + 1 + (f.TrailingComments t).2 = t + 1 + (f.TrailingComments t).2 := rfl
      have h2 : f.tokens.length - (t + 1) - (f.TrailingComments t).2 =
          f.tokens.length - (t + 1 + (f.TrailingComments t).2) := by omega
      rw [h2]
    -- the invariant carries to the new window
    have hinv' : ∀ m, m < f.comments.length →
        ((f.com m).index < t + 1 + (f.TrailingComments t).2 ↔
         (f.com m).attributedToken < t + 1 + (f.TrailingComments t).2) := by
      intro m hm
      constructor
      · intro hidx
        by_cases h1 : (f.com m).index < p
        · have := (hinv m hm).mp h1
          omega
        · by_cases h2 : (f.com m).index < t
          · have := hlead.2.2 m hm (by omega) h2
            omega
          · have hne : (f.com m).index ≠ t := by
              intro hc
              exact hterm ((isCommentTok_slot f t).mpr ⟨m, hm, hc⟩)
            have h3 : t < (f.com m).index := by omega
            have := htrail.2.1 m hm h3 (by omega)
            omega
      · intro hattr
        by_cases h1 : (f.com m).attributedToken < p
        · have := (hinv m hm).mpr h1
          omega
        · have hterm_attr := vp.attr_terminal m hm
          have hattr_t : (f.com m).attributedToken = t := by
            by_cases hat : (f.com m).attributedToken < t
            · exact absurd (hgap _ (by omega) hat) hterm_attr
            · by_cases hat2 : (f.com m).attributedToken = t
              · exact hat2
              · have h3 : t < (f.com m).attributedToken := by omega
                exact absurd (hfillT _ (by omega) (by omega)) hterm_attr
          have hne := vp.attr_ne m hm
          by_cases hidxlt : (f.com m).index < t
          · omega
          · have hgt : t < (f.com m).index := by omega
            have := htrail.2.2.1 m hm hattr_t hgt
            omega
    have hrec := ih (t + 1 + (f.TrailingComments t).2) hp'n hts' hinv'
    -- assemble the bytes
    show printCommentsBytes f (f.LeadingComments t) ++ f.seg t ++
      printCommentsBytes f (f.TrailingComments t) ++ printTerminals f ts' =
      ((List.range' p (f.tokens.length - p)).map f.seg).flatten
    have hpcL : printCommentsBytes f (f.LeadingComments t) =
        ((List.range' p (t - p)).map f.seg).flatten := by
      unfold printCommentsBytes
      have hmapped := congrArg (fun l => (l.map f.seg).flatten) hlead.2.1
      simp only [List.map_map] at hmapped
      exact hmapped
    have hpcT : printCommentsBytes f (f.TrailingComments t) =
        ((List.range' (t + 1) (f.TrailingComments t).2).map f.seg).flatten := by
      unfold printCommentsBytes
      have hmapped := congrArg (fun l => (l.map f.seg).flatten) htrail.1
      simp only [List.map_map] at hmapped
      exact hmapped
    rw [hpcL, hpcT, hrec]
    have hall : List.range' p (f.tokens.length - p) =
        List.range' p (t - p) ++ [t] ++ List.range' (t + 1) (f.TrailingComments t).2 ++
        List.range' (t + 1 + (f.TrailingComments t).2)
          (f.tokens.length - (t + 1 + (f.TrailingComments t).2)) := by
      have e1 : f.tokens.length - p =
          (t - p) + (1 + ((f.TrailingComments t).2 +
            (f.tokens.length - (t + 1 + (f.TrailingComments t).2)))) := by omega
      rw [e1, range'_add_append]
      have e2 : p + (t - p) = t := by omega
      rw [e2, range'_add_append]
      have e3 : t + 1 = t + 1 := rfl
      rw [range'_add_append]
      rw [List.range'_one]
      have e4 : t + 1 + (f.TrailingComments t).2 = t + 1 + (f.TrailingComments t).2 := rfl
      simp [List.append_assoc]
    rw [hall]
    simp only [List.map_append, List.flatten_append, List.append_assoc, List.map_cons,
      List.map_nil, List.flatten_cons, List.flatten_nil, List.append_nil]

/-- A token's printed bytes are the data slice from its `prevEnd` to its
own end. -/
theorem seg_eq_slice (f : FileInfo) (hw : WF f) (k : Nat) (hk : k < f.tokens.length) :
    f.seg k = (f.data.drop (f.prevEnd k).toNat).take
      ((endOf f k).toNat - (f.prevEnd k).toNat) := by
  have hnnk := hw.tok_nonneg (f.tok k) (getD_mem f.tokens k hk default)
  have hpe : 0 ≤ f.prevEnd k ∧ f.prevEnd k ≤ (f.tok k).offset := by
    unfold FileInfo.prevEnd
    by_cases hk0 : 0 < k
    · rw [if_pos hk0]
      have hnnp := hw.tok_nonneg (f.tok (k - 1)) (getD_mem f.tokens (k - 1) (by omega) default)
      have hchain := chain'_getD hw.tok_chain (k - 1) (by omega) default
      have hk1 : k - 1 + 1 = k := by omega
      rw [hk1] at hchain
      have : (f.tok (k - 1)).offset + (f.tok (k - 1)).length - 1 < (f.tok k).offset := hchain
      exact ⟨by omega, by omega⟩
    · rw [if_neg hk0]
      exact ⟨le_refl 0, hnnk.1⟩
  unfold FileInfo.seg FileInfo.LeadingWhitespace FileInfo.RawText
  have h1 : ((f.tok k).offset - f.prevEnd k).toNat =
      (f.tok k).offset.toNat - (f.prevEnd k).toNat := by omega
  have h2 : (f.tok k).length.toNat = (endOf f k).toNat - (f.tok k).offset.toNat := by
    unfold endOf
    omega
  rw [h1, h2]
  exact slice_concat f.data (f.prevEnd k).toNat (f.tok k).offset.toNat (endOf f k).toNat
    (by omega) (by unfold endOf; omega)

/-- The concatenation of all token segments is the data up to the last
token's end. -/
theorem segs_telescope (f : FileInfo) (hw : WF f) :
    ∀ m, 0 < m → m ≤ f.tokens.length →
      ((List.range' 0 m).map f.seg).flatten = f.data.take (endOf f (m - 1)).toNat := by
  intro m
  induction m with
  | zero => intro h; omega
  | succ m ih =>
    intro _ hm
    have hsplit : List.range' 0 (m + 1) = List.range' 0 m ++ [m] := by
      rw [range'_add_append 0 m 1, List.range'_one]
      simp
    rw [hsplit, List.map_append, List.flatten_append]
    simp only [List.map_cons, List.map_nil, List.flatten_cons, List.flatten_nil,
      List.append_nil, Nat.add_sub_cancel]
    rw [seg_eq_slice f hw m (by omega)]
    by_cases hm0 : m = 0
    · subst hm0
      simp only [List.range'_zero, List.map_nil, List.flatten_nil, List.nil_append]
      have hpe0 : f.prevEnd 0 = 0 := by simp [FileInfo.prevEnd]
      rw [hpe0]
      simp
    · rw [ih (by omega) (by omega)]
      have hpem : f.prevEnd m = endOf f (m - 1) := by
        unfold FileInfo.prevEnd endOf
        rw [if_pos (by omega)]
      rw [hpem]
      have hnnm := hw.tok_nonneg (f.tok m) (getD_mem f.tokens m (by omega) default)
      have hnnp := hw.tok_nonneg (f.tok (m - 1))
        (getD_mem f.tokens (m - 1) (by omega) default)
      have hchain := chain'_getD hw.tok_chain (m - 1) (by omega) default
      have hm1 : m - 1 + 1 = m := by omega
      rw [hm1] at hchain
      have hpe_off : (f.tok (m - 1)).offset + (f.tok (m - 1)).length ≤ (f.tok m).offset := by
        have : (f.tok (m - 1)).offset + (f.tok (m - 1)).length - 1 < (f.tok m).offset := hchain
        omega
      have hord : (endOf f (m - 1)).toNat ≤ (endOf f m).toNat := by
        unfold endOf
        omega
      have := slice_concat f.data 0 (endOf f (m - 1)).toNat (endOf f m).toNat
        (by omega) hord
      simp only [List.drop_zero, Nat.sub_zero] at this
      exact this

/-- C8 (spec-modelled): for a file whose parse satisfies the modelled
contract, printing the AST — every terminal's leading comments, leading
whitespace and raw text, then its trailing comments, then the file's final
whitespace — reproduces the file's bytes exactly. -/
theorem print_round_trip (f : FileInfo) (terminals : List Nat) (hf : Built f)
    (hvp : ValidParse f terminals) :
    printAST f terminals = f.data := by
  have hw := built_wf f hf
  unfold printAST
  have hPT := printTerminals_segments f hw hvp terminals 0 (by omega)
    (by rw [hvp.terminals_eq, List.range_eq_range', Nat.sub_zero])
    (by
      intro m hm
      constructor
      · intro h; omega
      · intro h; omega)
  rw [hPT]
  have hz : f.tokens.length - 0 = f.tokens.length := by omega
  rw [hz, segs_telescope f hw f.tokens.length hvp.tok_ne (le_refl _)]
  unfold finalWhitespace
  exact List.take_append_drop _ _


theorem built_fW8 : Built fW8 :=
  Built.addComment fW8d 1 2 fW8 0
    (Built.addToken fW8c 8 0 fW8d 3
      (Built.addToken fW8b 6 1 fW8c 2
        (Built.addToken fW8a 2 4 fW8b 1
          (Built.addToken (NewFileInfo "w8.proto" dataW8) 0 1 fW8a 0
            (Built.new "w8.proto" dataW8) (by decide))
          (by decide))
        (by decide))
      (by decide))
    (by decide) (by decide) (by decide)

theorem validParse_fW8 : ValidParse fW8 [0, 2, 3] := by
  refine ⟨by decide, ?_, ?_, by decide, by decide, ?_, ?_, ?_⟩
  · intro k hk
    have hk4 : k < 4 := hk
    interval_cases k <;> decide
  · intro k hk
    have hk4 : k + 1 < 4 := hk
    have hk3 : k < 3 := by omega
    interval_cases k <;> decide
  · intro n hn
    have hn1 : n < 1 := hn
    interval_cases n
    decide
  · intro n hn
    have hn1 : n < 1 := hn
    interval_cases n
    decide
  · intro n hn k hcond
    have hn1 : n < 1 := hn
    interval_cases n
    exfalso
    have e1 : (fW8.com 0).index = 1 := rfl
    have e2 : (fW8.com 0).attributedToken = 2 := rfl
    omega

/-- C8 witness: the concrete file round-trips byte for byte. -/
theorem print_round_trip_witness :
    (Built fW8 ∧ ValidParse fW8 [0, 2, 3]) ∧ printAST fW8 [0, 2, 3] = fW8.data :=
  ⟨⟨built_fW8, validParse_fW8⟩, print_round_trip fW8 [0, 2, 3] built_fW8 validParse_fW8⟩

end Protocompile
